import Mathlib

/-!
Verification of the file splitter / reconstructor (`src/main.rs`).

The development shallowly embeds the two core operations of the program:

* `split_file`  — embeds `fn split_file(input_path: &Path, savedir: &Path)`;
* `reconstruct_file` — embeds `fn reconstruct_file(directory: &Path)`.

A filesystem directory is modelled as an association list from file names to
byte contents (`Dir`).  Bytes are natural numbers (the code never overflows a
byte: chunk contents are copied verbatim).  The metadata file `info.json` is
modelled at the byte level: a real UTF-8 encoder/decoder models
`fs::read_to_string` / string-to-bytes writing, and a JSON parser /
serializer models the `serde_json` fragment this program exercises
(strings with escapes, objects, arrays, `null`, booleans, unsigned
integers).
-/

/-- A file's content: a list of bytes. -/
abbrev Bytes := List Nat

/-- A directory: an association list from entry names to file contents.
`fs::read_dir` enumeration order is the list order; names are unique. -/
abbrev Dir := List (String × Bytes)

/-! ### Byte-lexicographic order on names

`Vec<PathBuf>::sort()` in the Rust code sorts the chunk paths by the byte
order of their `OsString`s.  All paths share the directory part, so this is
byte-lexicographic order on the file names.  For valid UTF-8 names,
byte-lexicographic order coincides with lexicographic order on the scalar
values, which is what `lexLt` computes. -/

/-- Strict lexicographic order on char lists, by code point (equals byte
order of the UTF-8 encodings). -/
def lexLt : List Char → List Char → Bool
  | _, [] => false
  | [], _ :: _ => true
  | a :: as, b :: bs =>
    if a.toNat < b.toNat then true
    else if b.toNat < a.toNat then false
    else lexLt as bs

/-- Strict byte-lexicographic order on strings. -/
def strLtB (s t : String) : Bool := lexLt s.data t.data

/-- Non-strict byte-lexicographic order on strings. -/
def strLeB (s t : String) : Bool := !(strLtB t s)

/-- One insertion step of insertion sort by `strLeB`. -/
def insertStr (s : String) : List String → List String
  | [] => [s]
  | t :: ts => if strLeB s t then s :: t :: ts else t :: insertStr s ts

/-- Insertion sort by byte-lexicographic order: embeds `chunk_files.sort()`. -/
def sortStr : List String → List String
  | [] => []
  | s :: ss => insertStr s (sortStr ss)

/-- `pre` is a prefix of `l` (as char lists). -/
def listStarts : List Char → List Char → Bool
  | [], _ => true
  | _ :: _, [] => false
  | p :: ps, c :: cs => if p = c then listStarts ps cs else false

/-- Embeds Rust's `str::starts_with`: `strStarts s pre` holds when the bytes
of `pre` are a prefix of the bytes of `s`. -/
def strStarts (s pre : String) : Bool := listStarts pre.data s.data

/-! ### Chunk names: `format!("chunk{:03}", chunk_index)` -/

/-- The decimal digit character for `d` (`d < 10`). -/
def decDigit (d : Nat) : Char := Char.ofNat (48 + d)

/-- Decimal digits of `n`, most significant first; `fuel` bounds recursion
depth (`fuel ≥` number of digits suffices). -/
def natDigitsGo : Nat → Nat → List Char
  | 0, _ => []
  | fuel + 1, n => if n = 0 then [] else natDigitsGo fuel (n / 10) ++ [decDigit (n % 10)]

/-- Decimal representation of `n` as a char list. -/
def natDecRepr (n : Nat) : List Char := if n = 0 then ['0'] else natDigitsGo n n

/-- Embeds `format!("{:03}", i)`: decimal, zero-filled to width 3. -/
def pad3 (i : Nat) : String := ⟨List.replicate (3 - (natDecRepr i).length) '0' ++ natDecRepr i⟩

/-- Embeds `format!("chunk{:03}", chunk_index)` from `split_file`. -/
def chunkName (i : Nat) : String := "chunk" ++ pad3 i

/-! ### UTF-8

`fs::write(savedir.join("info.json"), string)` stores the UTF-8 bytes of the
string; `fs::read_to_string` decodes a file's bytes as UTF-8 and fails
(`ErrorKind::InvalidData`) when they are not valid UTF-8.  Both directions
are modelled exactly. -/

/-- UTF-8 encoding of a single scalar value. -/
def utf8EncodeChar (c : Char) : List Nat :=
  let v := c.toNat
  if v < 0x80 then [v]
  else if v < 0x800 then [0xC0 + v / 64, 0x80 + v % 64]
  else if v < 0x10000 then [0xE0 + v / 4096, 0x80 + (v / 64) % 64, 0x80 + v % 64]
  else [0xF0 + v / 262144, 0x80 + (v / 4096) % 64, 0x80 + (v / 64) % 64, 0x80 + v % 64]

/-- UTF-8 encoding of a char list. -/
def utf8EncodeChars (l : List Char) : List Nat := l.flatMap utf8EncodeChar

mutual

/-- Strict UTF-8 decoding (rejects stray continuations, overlong forms,
surrogates and values above `0x10FFFF`), as `fs::read_to_string` does.
Dispatches on the lead byte: `0x00–0x7F` stand alone; `0xC2–0xDF`,
`0xE0–0xEF` and `0xF0–0xF4` start 2-, 3- and 4-byte sequences; everything
else (stray continuations, the overlong leads `0xC0`/`0xC1`, `0xF5–0xFF`)
is rejected. -/
def utf8DecodeList : List Nat → Option (List Char)
  | [] => some []
  | b :: rest =>
    if b < 0x80 then
      (utf8DecodeList rest).map (fun cs => Char.ofNat b :: cs)
    else if b < 0xC2 then none
    else if b < 0xE0 then utf8DecodeCont 1 (b - 0xC0) 0x80 rest
    else if b < 0xF0 then utf8DecodeCont 2 (b - 0xE0) 0x800 rest
    else if b < 0xF5 then utf8DecodeCont 3 (b - 0xF0) 0x10000 rest
    else none

/-- Consumes `k` continuation bytes, accumulating the scalar value onto `v`;
`lo` is the least scalar the sequence is allowed to encode (overlong
rejection), and the completed scalar must be a valid (non-surrogate,
`≤ 0x10FFFF`) code point. -/
def utf8DecodeCont : Nat → Nat → Nat → List Nat → Option (List Char)
  | _, _, _, [] => none
  | k, v, lo, b :: rest =>
    if 0x80 ≤ b ∧ b < 0xC0 then
      if k ≤ 1 then
        if lo ≤ v * 64 + (b - 0x80) ∧ Nat.isValidChar (v * 64 + (b - 0x80)) then
          (utf8DecodeList rest).map (fun cs => Char.ofNat (v * 64 + (b - 0x80)) :: cs)
        else none
      else utf8DecodeCont (k - 1) (v * 64 + (b - 0x80)) lo rest
    else none

end

/-! ### JSON

Models the `serde_json` fragment the program exercises.  `split_file` writes
`serde_json::to_string(&json!({"original_filename": name}))`;
`reconstruct_file` runs `serde_json::from_str::<Value>`, `Value::get` and
`Value::as_str`.  The parser below covers strings (with escapes), objects,
arrays, `null`, `true`, `false` and unsigned integers — floats, signs and
exponents are not exercised by any property proved here. -/

/-- JSON values (`serde_json::Value`, restricted to the fragment above). -/
inductive Json where
  | jnull : Json
  | jbool : Bool → Json
  | jnum : Nat → Json
  | jstr : String → Json
  | jarr : List Json → Json
  | jobj : List (String × Json) → Json

/-- Value of a hexadecimal digit character. -/
def hexVal (c : Char) : Option Nat :=
  if 48 ≤ c.toNat ∧ c.toNat ≤ 57 then some (c.toNat - 48)
  else if 97 ≤ c.toNat ∧ c.toNat ≤ 102 then some (c.toNat - 87)
  else if 65 ≤ c.toNat ∧ c.toNat ≤ 70 then some (c.toNat - 55)
  else none

/-- Hexadecimal digit character for `d < 16` (lowercase letters). -/
def hexDigitChar (d : Nat) : Char :=
  if d < 10 then Char.ofNat (48 + d) else Char.ofNat (87 + d)

/-- Resolution of a single-character escape sequence `\c`. -/
def unescapeChar (c : Char) : Option Char :=
  if c = '"' then some '"'
  else if c = '\\' then some '\\'
  else if c = '/' then some '/'
  else if c = 'b' then some '\x08'
  else if c = 'f' then some '\x0C'
  else if c = 'n' then some '\n'
  else if c = 'r' then some '\r'
  else if c = 't' then some '\t'
  else none

/-- JSON string escaping of one character, as the serializer emits it:
`"` and `\` get a backslash, control characters become `\u00XX`, everything
else is emitted verbatim. -/
def escapeChar (c : Char) : List Char :=
  if c = '"' then ['\\', '"']
  else if c = '\\' then ['\\', '\\']
  else if c.toNat < 0x20 then
    ['\\', 'u', '0', '0', hexDigitChar (c.toNat / 16), hexDigitChar (c.toNat % 16)]
  else [c]

/-- JSON string escaping of a char list. -/
def escapeList (l : List Char) : List Char := l.flatMap escapeChar

mutual

/-- Parses a JSON string body (after the opening quote); returns the decoded
content and the remainder after the closing quote. -/
def parseStr : List Char → Option (List Char × List Char)
  | [] => none
  | c :: rest =>
    if c = '"' then some ([], rest)
    else if c = '\\' then parseEsc rest
    else if c.toNat < 0x20 then none
    else (parseStr rest).map (fun p => (c :: p.1, p.2))

/-- Parses the part of a string body following a backslash. -/
def parseEsc : List Char → Option (List Char × List Char)
  | [] => none
  | e :: rest =>
    if e = 'u' then parseHexEsc rest
    else
      match unescapeChar e with
      | some c' => (parseStr rest).map (fun p => (c' :: p.1, p.2))
      | none => none

/-- Parses the four hex digits of a `\uXXXX` escape and the remainder of the
string body. -/
def parseHexEsc : List Char → Option (List Char × List Char)
  | h1 :: h2 :: h3 :: h4 :: rest =>
    match hexVal h1, hexVal h2, hexVal h3, hexVal h4 with
    | some a, some b, some c', some d =>
      let v := ((a * 16 + b) * 16 + c') * 16 + d
      if Nat.isValidChar v then
        (parseStr rest).map (fun p => (Char.ofNat v :: p.1, p.2))
      else none
    | _, _, _, _ => none
  | _ => none

end

/-- Drops leading JSON whitespace. -/
def skipWs : List Char → List Char
  | [] => []
  | c :: l => if c = ' ' ∨ c = '\t' ∨ c = '\n' ∨ c = '\r' then skipWs l else c :: l

/-- Parses a run of decimal digits into a number (accumulator `acc`). -/
def parseDigits : List Char → Nat → Nat × List Char
  | [], acc => (acc, [])
  | c :: cs, acc =>
    if 48 ≤ c.toNat ∧ c.toNat ≤ 57 then parseDigits cs (acc * 10 + (c.toNat - 48))
    else (acc, c :: cs)

/-- Parses the tail of the keyword `true` (`t` already consumed). -/
def parseTrueKw : List Char → Option (Json × List Char)
  | 'r' :: 'u' :: 'e' :: r => some (Json.jbool true, r)
  | _ => none

/-- Parses the tail of the keyword `false` (`f` already consumed). -/
def parseFalseKw : List Char → Option (Json × List Char)
  | 'a' :: 'l' :: 's' :: 'e' :: r => some (Json.jbool false, r)
  | _ => none

/-- Parses the tail of the keyword `null` (`n` already consumed). -/
def parseNullKw : List Char → Option (Json × List Char)
  | 'u' :: 'l' :: 'l' :: r => some (Json.jnull, r)
  | _ => none

mutual

/-- Parses one JSON value; `fuel` bounds the nesting depth. -/
def parseVal : Nat → List Char → Option (Json × List Char)
  | 0, _ => none
  | fuel + 1, cs =>
    match skipWs cs with
    | [] => none
    | c :: rest =>
      if c = '"' then
        (parseStr rest).map (fun p => (Json.jstr ⟨p.1⟩, p.2))
      else if c = '\x7b' then
        parseMembers fuel (skipWs rest) []
      else if c = '[' then
        match skipWs rest with
        | ']' :: rest1 => some (Json.jarr [], rest1)
        | rest1 => parseElems fuel rest1 []
      else if c = 't' then parseTrueKw rest
      else if c = 'f' then parseFalseKw rest
      else if c = 'n' then parseNullKw rest
      else if 48 ≤ c.toNat ∧ c.toNat ≤ 57 then
        let p := parseDigits rest (c.toNat - 48)
        some (Json.jnum p.1, p.2)
      else none

/-- Parses the members of an object, starting right after `{` (whitespace
already skipped): either an immediate `}` or a non-empty member list. -/
def parseMembers : Nat → List Char → List (String × Json) → Option (Json × List Char)
  | 0, _, _ => none
  | fuel + 1, cs, acc =>
    if cs.head? = some '\x7d' then some (Json.jobj acc, cs.tail)
    else parseMembersMore fuel cs acc

/-- Parses a non-empty run of object members; `acc` holds the members parsed
so far. -/
def parseMembersMore : Nat → List Char → List (String × Json) → Option (Json × List Char)
  | 0, _, _ => none
  | fuel + 1, cs, acc =>
    if cs.head? = some '"' then
      match parseStr cs.tail with
      | some (key, rest1) =>
        match skipWs rest1 with
        | ':' :: rest2 =>
          match parseVal fuel rest2 with
          | some (v, rest3) =>
            match skipWs rest3 with
            | ',' :: rest4 => parseMembersMore fuel (skipWs rest4) (acc ++ [(⟨key⟩, v)])
            | '\x7d' :: rest4 => some (Json.jobj (acc ++ [(⟨key⟩, v)]), rest4)
            | _ => none
          | none => none
        | _ => none
      | none => none
    else none

/-- Parses the elements of a non-empty array; `acc` holds the elements
parsed so far. -/
def parseElems : Nat → List Char → List Json → Option (Json × List Char)
  | 0, _, _ => none
  | fuel + 1, cs, acc =>
    match parseVal fuel cs with
    | some (v, rest) =>
      match skipWs rest with
      | ',' :: rest1 => parseElems fuel rest1 (acc ++ [v])
      | ']' :: rest1 => some (Json.jarr (acc ++ [v]), rest1)
      | _ => none
    | none => none

end

/-- Embeds `serde_json::from_str::<serde_json::Value>`: parses a complete
JSON document (nothing but whitespace may follow the value). -/
def jsonParse (s : String) : Option Json :=
  match parseVal (s.data.length + 1) s.data with
  | some (j, rest) => if skipWs rest = [] then some j else none
  | none => none

/-- First member of a field list carrying the given key. -/
def lookupField : List (String × Json) → String → Option Json
  | [], _ => none
  | (k, v) :: fs, key => if k = key then some v else lookupField fs key

/-- Embeds `Value::get(key)` for object values: first member with the key. -/
def jsonGet (j : Json) (key : String) : Option Json :=
  match j with
  | Json.jobj fields => lookupField fields key
  | _ => none

/-- Embeds `Value::as_str`. -/
def jsonAsStr : Json → Option String
  | Json.jstr s => some s
  | _ => none

/-- The exact text `serde_json::to_string(&json!({"original_filename": name}))`
produces: a one-member object, no whitespace, name escaped. -/
def infoJsonString (name : String) : String :=
  ⟨'\x7b' :: '"' :: ("original_filename".data
    ++ '"' :: ':' :: '"' :: (escapeList name.data ++ ['"', '\x7d']))⟩

/-- The bytes `split_file` writes into `info.json`. -/
def encodeInfo (name : String) : Bytes := utf8EncodeChars (infoJsonString name).data

/-! ### Directory operations -/

/-- Content of the named entry (`File::open` + read, or `fs::read`). -/
def dirLookup : Dir → String → Option Bytes
  | [], _ => none
  | (n, c) :: d, k => if n = k then some c else dirLookup d k

/-- Embeds `File::create` / `fs::write`: truncates an existing entry in
place, or appends a new entry at the end of the enumeration order. -/
def dirInsert : Dir → String → Bytes → Dir
  | [], k, v => [(k, v)]
  | (n, c) :: d, k, v => if n = k then (k, v) :: d else (n, c) :: dirInsert d k v

/-- Appends bytes to the named entry, when present (one `io::copy` step into
the already-created output file). -/
def dirAppend : Dir → String → Bytes → Dir
  | [], _, _ => []
  | (n, c) :: d, k, v => if n = k then (n, c ++ v) :: d else (n, c) :: dirAppend d k v

/-- The entry names, in enumeration order (`fs::read_dir`). -/
def dirNames (d : Dir) : List String := d.map (fun e => e.1)

/-! ### `split_file` -/

/-- `const CHUNK_SIZE: usize = 5 * 1024 * 1024;` -/
def CHUNK_SIZE : Nat := 5 * 1024 * 1024

/-- The split loop with explicit fuel (any `fuel ≥ data.length` is enough
when `k > 0`): repeatedly `read` fills the `k`-byte buffer with
`min k remaining` bytes of the input and the loop writes exactly the bytes
read, stopping at a zero-byte read. -/
def splitChunksGo (k : Nat) : Nat → Bytes → List Bytes
  | _, [] => []
  | 0, _ :: _ => []
  | fuel + 1, b :: bs =>
    if k = 0 then [] else (b :: bs).take k :: splitChunksGo k fuel ((b :: bs).drop k)

/-- The chunk contents the split loop produces from `data` with chunk size
`k`. -/
def splitChunks (k : Nat) (data : Bytes) : List Bytes := splitChunksGo k data.length data

/-- Writes the chunk files `chunkName i, chunkName (i+1), …` with the given
contents into the directory (the split loop's chunk-writing steps). -/
def writeChunksAux (d : Dir) (i : Nat) : List Bytes → Dir
  | [] => d
  | c :: cs => writeChunksAux (dirInsert d (chunkName i) c) (i + 1) cs

/-- The directory entries the split loop appends for chunk indices
`i, i+1, …` with the given contents. -/
def chunkEntriesFrom (i : Nat) : List Bytes → Dir
  | [] => []
  | c :: cs => (chunkName i, c) :: chunkEntriesFrom (i + 1) cs

/-- The chunk names for chunk indices `i, i+1, …`, one per content. -/
def chunkNamesFrom (i : Nat) : List Bytes → List String
  | [] => []
  | _ :: cs => chunkName i :: chunkNamesFrom (i + 1) cs

/-- The concatenation of the named entries' contents in the given order. -/
def joinLookups (d : Dir) (l : List String) : Bytes :=
  (l.map (fun cn => (dirLookup d cn).getD [])).flatten

/-- The error kinds distinguishable in the embedded results. -/
inductive IOErrorKind where
  | notFound : IOErrorKind
  | alreadyExists : IOErrorKind
  | invalidData : IOErrorKind
  | other : IOErrorKind
deriving DecidableEq

/-- Outcome of `split_file`, together with the final state of the target
directory (`none` target directories have been created by then). -/
inductive SplitResult where
  | panic : Dir → SplitResult
  | err : IOErrorKind → Dir → SplitResult
  | ok : Dir → SplitResult
deriving DecidableEq

/-- The source file handed to `split_file`: its path (as components) and its
content (`none` when no file exists at the path). -/
structure SrcFile where
  path : List String
  data : Option Bytes
deriving DecidableEq

/-- Embeds `Path::file_name`: the final path component, unless the path is
empty (a root) or terminates in `..`. -/
def fileName (p : List String) : Option String :=
  match p.getLast? with
  | some c => if c = ".." then none else some c
  | none => none

/-- Embeds `fn split_file(input_path, savedir) -> io::Result<()>`, in the
source's order: create the target directory if absent; fail with
`AlreadyExists` if it is non-empty; `unwrap` the file name (panic when
absent); write `info.json`; open the source (fail with `NotFound` when the
file does not exist); loop writing `CHUNK_SIZE`-byte chunks. -/
def split_file (src : SrcFile) (savedir : Option Dir) : SplitResult :=
  let d := savedir.getD []
  if d ≠ [] then SplitResult.err IOErrorKind.alreadyExists d
  else
    match fileName src.path with
    | none => SplitResult.panic d
    | some name =>
      let d1 := dirInsert d "info.json" (encodeInfo name)
      match src.data with
      | none => SplitResult.err IOErrorKind.notFound d1
      | some bytes => SplitResult.ok (writeChunksAux d1 0 (splitChunks CHUNK_SIZE bytes))

/-! ### `reconstruct_file` -/

/-- Outcome of `reconstruct_file`: the returned name (on success) and the
final directory state. -/
inductive ReconResult where
  | err : IOErrorKind → Dir → ReconResult
  | ok : String → Dir → ReconResult
deriving DecidableEq

/-- The fallback output name. -/
def defaultName : String := "reconstructed_file"

/-- The chunk enumeration of `reconstruct_file`: all entries whose name
starts with `"chunk"`, sorted by byte-lexicographic order
(`read_dir` + `filter` + `sort`). -/
def chunkListOf (d : Dir) : List String :=
  sortStr ((dirNames d).filter (fun n => strStarts n "chunk"))

/-- The concatenation loop: open each chunk in order and `io::copy` it onto
the output file `out`.  Fails if a chunk cannot be opened.  A copy appends
the chunk's current content to `out`'s current content. -/
def concatChunks (d : Dir) (out : String) : List String → Option Dir
  | [] => some d
  | cn :: rest =>
    match dirLookup d cn with
    | none => none
    | some cbs => concatChunks (dirAppend d out cbs) out rest

/-- The part of `reconstruct_file` after the output name is fixed: create
(truncate) the output file, enumerate-filter-sort the chunks, concatenate. -/
def doRecon (d : Dir) (name : String) : ReconResult :=
  let d1 := dirInsert d name []
  match concatChunks d1 name (chunkListOf d1) with
  | none => ReconResult.err IOErrorKind.other d1
  | some d2 => ReconResult.ok name d2

/-- Embeds `fn reconstruct_file(directory) -> io::Result<String>`: read
`info.json` if it exists (`fs::read_to_string` propagates an error when the
bytes are not valid UTF-8); parse it with `serde_json`, extract
`original_filename` as a string, falling back to `"reconstructed_file"` on
any parse/shape failure; then create the output and concatenate the chunks. -/
def reconstruct_file (d : Dir) : ReconResult :=
  match dirLookup d "info.json" with
  | none => doRecon d defaultName
  | some bs =>
    match utf8DecodeList bs with
    | none => ReconResult.err IOErrorKind.invalidData d
    | some cs =>
      let name :=
        match (jsonParse ⟨cs⟩).bind (fun j => (jsonGet j "original_filename").bind jsonAsStr) with
        | some n => n
        | none => defaultName
      doRecon d name

/-! ## Theorems -/

/-! #### UTF-8 round trip -/

theorem char_toNat_valid (c : Char) :
    c.toNat < 0xd800 ∨ (0xdfff < c.toNat ∧ c.toNat < 0x110000) := c.valid

theorem utf8DecodeList_encodeChar (c : Char) (rest : List Nat) :
    utf8DecodeList (utf8EncodeChar c ++ rest) = (utf8DecodeList rest).map (fun cs => c :: cs) := by
  have hv := char_toNat_valid c
  by_cases h1 : c.toNat < 0x80
  · simp only [utf8EncodeChar, if_pos h1, List.cons_append, List.nil_append]
    rw [utf8DecodeList, if_pos h1, Char.ofNat_toNat]
  · by_cases h2 : c.toNat < 0x800
    · simp only [utf8EncodeChar, if_neg h1, if_pos h2, List.cons_append, List.nil_append]
      rw [utf8DecodeList, if_neg (by omega), if_neg (by omega), if_pos (by omega)]
      rw [utf8DecodeCont, if_pos (by constructor <;> omega), if_pos (by omega)]
      have hval : (0xC0 + c.toNat / 64 - 0xC0) * 64 + (0x80 + c.toNat % 64 - 0x80) = c.toNat := by
        omega
      rw [hval] at *
      rw [if_pos ⟨by omega, hv⟩, Char.ofNat_toNat]
    · by_cases h3 : c.toNat < 0x10000
      · simp only [utf8EncodeChar, if_neg h1, if_neg h2, if_pos h3, List.cons_append,
          List.nil_append]
        rw [utf8DecodeList, if_neg (by omega), if_neg (by omega), if_neg (by omega),
          if_pos (by omega)]
        rw [utf8DecodeCont, if_pos (by constructor <;> omega), if_neg (by omega)]
        rw [utf8DecodeCont, if_pos (by constructor <;> omega), if_pos (by omega)]
        have hval : ((0xE0 + c.toNat / 4096 - 0xE0) * 64 + (0x80 + c.toNat / 64 % 64 - 0x80)) * 64
            + (0x80 + c.toNat % 64 - 0x80) = c.toNat := by omega
        rw [hval]
        rw [if_pos ⟨by omega, hv⟩, Char.ofNat_toNat]
      · simp only [utf8EncodeChar, if_neg h1, if_neg h2, if_neg h3, List.cons_append,
          List.nil_append]
        rw [utf8DecodeList, if_neg (by omega), if_neg (by omega), if_neg (by omega),
          if_neg (by omega), if_pos (by omega)]
        rw [utf8DecodeCont, if_pos (by constructor <;> omega), if_neg (by omega)]
        rw [utf8DecodeCont, if_pos (by constructor <;> omega), if_neg (by omega)]
        rw [utf8DecodeCont, if_pos (by constructor <;> omega), if_pos (by omega)]
        have hval : (((0xF0 + c.toNat / 262144 - 0xF0) * 64 + (0x80 + c.toNat / 4096 % 64 - 0x80))
            * 64 + (0x80 + c.toNat / 64 % 64 - 0x80)) * 64 + (0x80 + c.toNat % 64 - 0x80)
            = c.toNat := by omega
        rw [hval]
        rw [if_pos ⟨by omega, hv⟩, Char.ofNat_toNat]

/-- Decoding inverts encoding: `fs::read_to_string` recovers exactly the
string whose UTF-8 bytes were written. -/
theorem utf8DecodeList_encodeChars (l : List Char) :
    utf8DecodeList (utf8EncodeChars l) = some l := by
  induction l with
  | nil => rfl
  | cons c cs ih =>
    have : utf8EncodeChars (c :: cs) = utf8EncodeChar c ++ utf8EncodeChars cs := by
      simp [utf8EncodeChars]
    rw [this, utf8DecodeList_encodeChar, ih]
    rfl

/-! #### JSON round trip for the metadata document -/

theorem hexVal_hexDigitChar : ∀ d : Nat, d < 16 → hexVal (hexDigitChar d) = some d := by decide

/-- `skipWs` keeps a list whose head is not whitespace. -/
theorem skipWs_cons_nonws (c : Char) (l : List Char)
    (h : ¬(c = ' ' ∨ c = '\t' ∨ c = '\n' ∨ c = '\r')) : skipWs (c :: l) = c :: l := by
  rw [skipWs.eq_def]
  exact if_neg h

/-- Parsing inverts escaping: a JSON string body built by the serializer
parses back to the original characters. -/
theorem parseStr_escape (cs : List Char) (rest : List Char) :
    parseStr (escapeList cs ++ '"' :: rest) = some (cs, rest) := by
  induction cs with
  | nil =>
    show parseStr ('"' :: rest) = some ([], rest)
    rw [parseStr, if_pos rfl]
  | cons c cs ih =>
    have hesc : escapeList (c :: cs) = escapeChar c ++ escapeList cs := by
      simp [escapeList]
    rw [hesc, List.append_assoc]
    by_cases hq : c = '"'
    · subst hq
      show parseStr ('\\' :: '"' :: (escapeList cs ++ '"' :: rest)) = _
      rw [parseStr, if_neg (by decide), if_pos rfl]
      rw [parseEsc, if_neg (by decide)]
      have hu : unescapeChar '"' = some '"' := by decide
      rw [hu]
      rw [ih]
      rfl
    · by_cases hb : c = '\\'
      · subst hb
        show parseStr ('\\' :: '\\' :: (escapeList cs ++ '"' :: rest)) = _
        rw [parseStr, if_neg (by decide), if_pos rfl]
        rw [parseEsc, if_neg (by decide)]
        have hu : unescapeChar '\\' = some '\\' := by decide
        rw [hu]
        rw [ih]
        rfl
      · by_cases hc : c.toNat < 0x20
        · have hesc2 : escapeChar c =
              ['\\', 'u', '0', '0', hexDigitChar (c.toNat / 16), hexDigitChar (c.toNat % 16)] := by
            rw [escapeChar, if_neg hq, if_neg hb, if_pos hc]
          rw [hesc2]
          show parseStr ('\\' :: 'u' :: '0' :: '0' :: hexDigitChar (c.toNat / 16)
            :: hexDigitChar (c.toNat % 16) :: (escapeList cs ++ '"' :: rest)) = _
          rw [parseStr, if_neg (by decide), if_pos rfl]
          rw [parseEsc, if_pos rfl]
          rw [parseHexEsc]
          have e0 : hexVal '0' = some 0 := by decide
          have e1 : hexVal (hexDigitChar (c.toNat / 16)) = some (c.toNat / 16) :=
            hexVal_hexDigitChar _ (by omega)
          have e2 : hexVal (hexDigitChar (c.toNat % 16)) = some (c.toNat % 16) :=
            hexVal_hexDigitChar _ (by omega)
          rw [e0, e1, e2]
          simp only
          have hval : ((0 * 16 + 0) * 16 + c.toNat / 16) * 16 + c.toNat % 16 = c.toNat := by omega
          rw [hval, if_pos (Or.inl (by omega)), Char.ofNat_toNat]
          rw [ih]
          rfl
        · have hesc2 : escapeChar c = [c] := by
            rw [escapeChar, if_neg hq, if_neg hb, if_neg hc]
          rw [hesc2]
          show parseStr (c :: (escapeList cs ++ '"' :: rest)) = _
          rw [parseStr, if_neg hq, if_neg hb, if_neg hc]
          rw [ih]
          rfl

/-- The character-list form of the metadata document. -/
theorem infoJsonString_data (name : String) :
    (infoJsonString name).data = '\x7b' :: '"' :: ("original_filename".data
      ++ '"' :: ':' :: '"' :: (escapeList name.data ++ ['"', '\x7d'])) := rfl

/-- Parsing the serialized metadata document recovers the one-member object,
for any fuel at least 4. -/
theorem parseVal_info (name : String) (f : Nat) :
    parseVal (f + 4) (infoJsonString name).data
      = some (Json.jobj [("original_filename", Json.jstr name)], []) := by
  rw [infoJsonString_data]
  show parseVal (f + 3 + 1) _ = _
  rw [parseVal]
  rw [skipWs_cons_nonws _ _ (by decide)]
  simp only [if_neg (show ¬('\x7b' = '"') from by decide), if_pos rfl]
  rw [skipWs_cons_nonws _ _ (by decide)]
  show parseMembers (f + 2 + 1) ('"' :: ("original_filename".data
    ++ '"' :: ':' :: '"' :: (escapeList name.data ++ ['"', '\x7d']))) [] = _
  rw [parseMembers]
  simp only [List.head?_cons, List.tail_cons]
  rw [if_neg (by decide)]
  show parseMembersMore (f + 1 + 1) _ _ = _
  rw [parseMembersMore]
  simp only [List.head?_cons, List.tail_cons]
  rw [if_pos trivial]
  have hkey : escapeList "original_filename".data = "original_filename".data := by decide
  have hp1 : parseStr ("original_filename".data
      ++ '"' :: ':' :: '"' :: (escapeList name.data ++ ['"', '\x7d']))
      = some ("original_filename".data, ':' :: '"' :: (escapeList name.data ++ ['"', '\x7d'])) := by
    conv_lhs => rw [← hkey]
    exact parseStr_escape _ _
  rw [hp1]
  simp only
  rw [skipWs_cons_nonws _ _ (by decide)]
  simp only
  show (match parseVal (f + 1) ('"' :: (escapeList name.data ++ ['"', '\x7d'])) with
    | some (v, rest3) =>
      match skipWs rest3 with
      | ',' :: rest4 => parseMembersMore (f + 1) (skipWs rest4) ([] ++ [("original_filename", v)])
      | '\x7d' :: rest4 => some (Json.jobj ([] ++ [("original_filename", v)]), rest4)
      | _ => none
    | none => none) = _
  rw [parseVal]
  rw [skipWs_cons_nonws _ _ (by decide)]
  simp only [eq_self_iff_true, if_true]
  rw [parseStr_escape name.data ['\x7d']]
  rfl

/-- `serde_json::from_str` applied to the metadata document `split_file`
writes: the parse succeeds and yields exactly the one-member object. -/
theorem jsonParse_info (name : String) :
    jsonParse (infoJsonString name)
      = some (Json.jobj [("original_filename", Json.jstr name)]) := by
  have hlen : 3 ≤ (infoJsonString name).data.length := by
    rw [infoJsonString_data]
    simp
  obtain ⟨f, hf⟩ : ∃ f, (infoJsonString name).data.length + 1 = f + 4 :=
    ⟨(infoJsonString name).data.length - 3, by omega⟩
  rw [jsonParse, hf, parseVal_info]
  rfl

/-- The full name-extraction pipeline of `reconstruct_file` applied to the
metadata document `split_file` writes recovers the recorded name. -/
theorem extractName_info (name : String) :
    (jsonParse (infoJsonString name)).bind
      (fun j => (jsonGet j "original_filename").bind jsonAsStr) = some name := by
  rw [jsonParse_info]
  simp [jsonGet, lookupField, jsonAsStr]

/-- The fuel does not matter as long as it is at least `data.length`. -/
theorem splitChunksGo_fuel (k : Nat) :
    ∀ (fuel fuel' : Nat) (data : Bytes), data.length ≤ fuel → data.length ≤ fuel' →
      splitChunksGo k fuel data = splitChunksGo k fuel' data := by
  intro fuel
  induction fuel with
  | zero =>
    intro fuel' data h _
    match data, fuel' with
    | [], 0 => rfl
    | [], _ + 1 => rfl
    | b :: bs, _ => simp at h
  | succ f ih =>
    intro fuel' data h h'
    match data, fuel' with
    | [], 0 => rfl
    | [], _ + 1 => rfl
    | b :: bs, 0 => simp at h'
    | b :: bs, f' + 1 =>
      show (if k = 0 then _ else _) = (if k = 0 then _ else _)
      by_cases hk : k = 0
      · simp [hk]
      · have hk1 : 1 ≤ k := Nat.pos_of_ne_zero hk
        have hlen : ((b :: bs).drop k).length ≤ f := by
          simp only [List.length_drop, List.length_cons]
          simp only [List.length_cons] at h
          omega
        have hlen' : ((b :: bs).drop k).length ≤ f' := by
          simp only [List.length_drop, List.length_cons]
          simp only [List.length_cons] at h'
          omega
        simp only [if_neg hk]
        rw [ih f' _ hlen hlen']

/-- The defining recurrence of `splitChunks`. -/
theorem splitChunks_eq (k : Nat) (data : Bytes) :
    splitChunks k data =
      if data = [] ∨ k = 0 then [] else data.take k :: splitChunks k (data.drop k) := by
  match data with
  | [] => rfl
  | b :: bs =>
    by_cases hk : k = 0
    · simp [splitChunks, splitChunksGo, hk]
    · have hk1 : 1 ≤ k := Nat.pos_of_ne_zero hk
      simp only [splitChunks, List.length_cons]
      show (if k = 0 then _ else _) = _
      rw [if_neg hk, if_neg (by simp [hk])]
      congr 1
      exact splitChunksGo_fuel k bs.length ((b :: bs).drop k).length _
        (by simp only [List.length_drop, List.length_cons]; omega) le_rfl

/-! #### Chunk names -/

theorem natDigitsGo_succ (fuel n : Nat) :
    natDigitsGo (fuel + 1) n =
      if n = 0 then [] else natDigitsGo fuel (n / 10) ++ [decDigit (n % 10)] := by
  rw [natDigitsGo.eq_def]

theorem natDigitsGo_zero (fuel : Nat) : natDigitsGo fuel 0 = [] := by
  cases fuel with
  | zero => rfl
  | succ f => rw [natDigitsGo_succ, if_pos rfl]

theorem natDigitsGo_one_digit (fuel n : Nat) (h0 : 0 < n) (h : n < 10) (hf : 1 ≤ fuel) :
    natDigitsGo fuel n = [decDigit n] := by
  match fuel with
  | f + 1 =>
    rw [natDigitsGo_succ, if_neg (by omega)]
    have h1 : n / 10 = 0 := by omega
    have h2 : n % 10 = n := by omega
    rw [h1, h2, natDigitsGo_zero, List.nil_append]

theorem natDigitsGo_two_digits (fuel n : Nat) (h0 : 10 ≤ n) (h : n < 100) (hf : 2 ≤ fuel) :
    natDigitsGo fuel n = [decDigit (n / 10), decDigit (n % 10)] := by
  match fuel with
  | f + 1 =>
    rw [natDigitsGo_succ, if_neg (by omega)]
    rw [natDigitsGo_one_digit f (n / 10) (by omega) (by omega) (by omega)]
    rfl

theorem natDigitsGo_three_digits (fuel n : Nat) (h0 : 100 ≤ n) (h : n < 1000) (hf : 3 ≤ fuel) :
    natDigitsGo fuel n = [decDigit (n / 100), decDigit (n / 10 % 10), decDigit (n % 10)] := by
  match fuel with
  | f + 1 =>
    rw [natDigitsGo_succ, if_neg (by omega)]
    rw [natDigitsGo_two_digits f (n / 10) (by omega) (by omega) (by omega)]
    have h1 : n / 10 / 10 = n / 100 := by omega
    have h2 : n / 10 % 10 = n / 10 % 10 := rfl
    rw [h1]
    rfl

/-- For indices below 1000, `format!("{:03}", i)` is exactly the three
decimal digit characters of `i`. -/
theorem pad3_data (i : Nat) (h : i < 1000) :
    (pad3 i).data = [decDigit (i / 100), decDigit (i / 10 % 10), decDigit (i % 10)] := by
  by_cases h0 : i = 0
  · subst h0
    decide
  · by_cases h1 : i < 10
    · show (List.replicate (3 - (natDecRepr i).length) '0' ++ natDecRepr i) = _
      rw [natDecRepr, if_neg h0, natDigitsGo_one_digit i i (by omega) h1 (by omega)]
      have e2 : i / 100 = 0 := by omega
      have e3 : i / 10 % 10 = 0 := by omega
      have e4 : i % 10 = i := by omega
      rw [e2, e3, e4]
      rfl
    · by_cases h2 : i < 100
      · show (List.replicate (3 - (natDecRepr i).length) '0' ++ natDecRepr i) = _
        rw [natDecRepr, if_neg h0, natDigitsGo_two_digits i i (by omega) h2 (by omega)]
        have e2 : i / 100 = 0 := by omega
        have e3 : i / 10 % 10 = i / 10 := by omega
        rw [e2, e3]
        rfl
      · show (List.replicate (3 - (natDecRepr i).length) '0' ++ natDecRepr i) = _
        rw [natDecRepr, if_neg h0, natDigitsGo_three_digits i i (by omega) h (by omega)]
        rfl

/-- The characters of a chunk file name, for indices below 1000. -/
theorem chunkName_data (i : Nat) (h : i < 1000) :
    (chunkName i).data = 'c' :: 'h' :: 'u' :: 'n' :: 'k'
      :: [decDigit (i / 100), decDigit (i / 10 % 10), decDigit (i % 10)] := by
  show ("chunk" ++ pad3 i).data = _
  rw [String.data_append, pad3_data i h]
  rfl

theorem decDigit_inj : ∀ a : Nat, a < 10 → ∀ b : Nat, b < 10 →
    decDigit a = decDigit b → a = b := by decide

theorem decDigit_mono : ∀ a : Nat, a < 10 → ∀ b : Nat, b < 10 → a < b →
    (decDigit a).toNat < (decDigit b).toNat := by decide

/-- Distinct indices below 1000 give distinct chunk file names. -/
theorem chunkName_inj (i j : Nat) (hi : i < 1000) (hj : j < 1000)
    (h : chunkName i = chunkName j) : i = j := by
  have hd : (chunkName i).data = (chunkName j).data := by rw [h]
  rw [chunkName_data i hi, chunkName_data j hj] at hd
  simp at hd
  obtain ⟨h2, h1, h0⟩ := hd
  have e2 := decDigit_inj _ (by omega) _ (by omega) h2
  have e1 := decDigit_inj _ (by omega) _ (by omega) h1
  have e0 := decDigit_inj _ (by omega) _ (by omega) h0
  omega

/-! #### Sorting -/

theorem lexLt_cons (a b : Char) (as bs : List Char) :
    lexLt (a :: as) (b :: bs) =
      if a.toNat < b.toNat then true
      else if b.toNat < a.toNat then false
      else lexLt as bs := by
  rw [lexLt.eq_def]

theorem lexLt_asymm : ∀ (s t : List Char), lexLt s t = true → lexLt t s = false := by
  intro s
  induction s with
  | nil =>
    intro t _
    cases t with
    | nil => rfl
    | cons b bs => rfl
  | cons a as ih =>
    intro t ht
    cases t with
    | nil =>
      rw [show lexLt (a :: as) [] = false from rfl] at ht
      simp at ht
    | cons b bs =>
      rw [lexLt_cons] at ht ⊢
      by_cases h1 : a.toNat < b.toNat
      · rw [if_neg (by omega), if_pos h1]
      · by_cases h2 : b.toNat < a.toNat
        · rw [if_neg h1, if_pos h2] at ht
          simp at ht
        · rw [if_neg h1, if_neg h2] at ht
          rw [if_neg h2, if_neg h1]
          exact ih bs ht

/-- A true strict comparison makes `strLeB` hold in the same direction. -/
theorem strLeB_of_strLtB {s t : String} (h : strLtB s t = true) : strLeB s t = true := by
  have := lexLt_asymm s.data t.data h
  rw [strLeB, strLtB, this]
  rfl

/-- Inserting below the head of a sorted-above list keeps it in place. -/
theorem insertStr_of_le (s : String) (l : List String)
    (h : l = [] ∨ ∃ t ts, l = t :: ts ∧ strLtB s t = true) : insertStr s l = s :: l := by
  rcases h with h | ⟨t, ts, rfl, hlt⟩
  · subst h
    rfl
  · rw [insertStr, if_pos (strLeB_of_strLtB hlt)]

/-- Sorting a list that is already strictly sorted leaves it unchanged. -/
theorem sortStr_pairwise_id (l : List String)
    (h : l.Pairwise (fun a b => strLtB a b = true)) : sortStr l = l := by
  induction l with
  | nil => rfl
  | cons s ss ih =>
    rw [List.pairwise_cons] at h
    rw [sortStr, ih h.2]
    apply insertStr_of_le
    cases ss with
    | nil => exact Or.inl rfl
    | cons t ts => exact Or.inr ⟨t, ts, rfl, h.1 t (by simp)⟩

theorem mem_insertStr (a s : String) (l : List String) :
    a ∈ insertStr s l ↔ a = s ∨ a ∈ l := by
  induction l with
  | nil => simp [insertStr]
  | cons t ts ih =>
    rw [insertStr]
    by_cases h : strLeB s t = true
    · rw [if_pos h]
      simp
    · rw [if_neg h]
      simp only [List.mem_cons, ih]
      tauto

theorem mem_sortStr (a : String) (l : List String) : a ∈ sortStr l ↔ a ∈ l := by
  induction l with
  | nil => simp [sortStr]
  | cons s ss ih =>
    rw [sortStr, mem_insertStr]
    simp [ih]

/-- Chunk names for indices below 1000 are strictly increasing in
byte-lexicographic order. -/
theorem chunkName_lt (i j : Nat) (hij : i < j) (hj : j < 1000) :
    strLtB (chunkName i) (chunkName j) = true := by
  rw [strLtB, chunkName_data i (by omega), chunkName_data j hj]
  rw [lexLt_cons, if_neg (by omega), if_neg (by omega)]
  rw [lexLt_cons, if_neg (by omega), if_neg (by omega)]
  rw [lexLt_cons, if_neg (by omega), if_neg (by omega)]
  rw [lexLt_cons, if_neg (by omega), if_neg (by omega)]
  rw [lexLt_cons, if_neg (by omega), if_neg (by omega)]
  have htri : i / 100 < j / 100 ∨ (i / 100 = j / 100 ∧ (i / 10 % 10 < j / 10 % 10
      ∨ (i / 10 % 10 = j / 10 % 10 ∧ i % 10 < j % 10))) := by omega
  rcases htri with h2 | ⟨h2, h1 | ⟨h1, h0⟩⟩
  · rw [lexLt_cons, if_pos (decDigit_mono _ (by omega) _ (by omega) h2)]
  · rw [h2, lexLt_cons, if_neg (by omega), if_neg (by omega)]
    rw [lexLt_cons, if_pos (decDigit_mono _ (by omega) _ (by omega) h1)]
  · rw [h2, h1, lexLt_cons, if_neg (by omega), if_neg (by omega)]
    rw [lexLt_cons, if_neg (by omega), if_neg (by omega)]
    rw [lexLt_cons, if_pos (decDigit_mono _ (by omega) _ (by omega) h0)]

/-! #### Name prefixes -/

theorem listStarts_append (p r : List Char) : listStarts p (p ++ r) = true := by
  induction p with
  | nil => rfl
  | cons c cs ih =>
    rw [List.cons_append, listStarts.eq_def]
    simp only [if_pos rfl]
    exact ih

/-- Every chunk file name starts with the tag `"chunk"`. -/
theorem strStarts_chunkName (i : Nat) : strStarts (chunkName i) "chunk" = true := by
  rw [strStarts, chunkName, String.data_append]
  exact listStarts_append _ _

theorem strStarts_info : strStarts "info.json" "chunk" = false := by decide

/-- No chunk file name is the metadata file name. -/
theorem chunkName_ne_info (i : Nat) : chunkName i ≠ "info.json" := by
  intro h
  have h1 := strStarts_chunkName i
  rw [h, strStarts_info] at h1
  simp at h1

/-! #### Directory operations -/

theorem dirNames_nil : dirNames [] = [] := rfl

theorem dirNames_cons (n : String) (c : Bytes) (d : Dir) :
    dirNames ((n, c) :: d) = n :: dirNames d := rfl

theorem dirLookup_nil (k : String) : dirLookup [] k = none := rfl

theorem dirLookup_cons (n : String) (c : Bytes) (d : Dir) (k : String) :
    dirLookup ((n, c) :: d) k = if n = k then some c else dirLookup d k := by
  rw [dirLookup.eq_def]

theorem dirInsert_nil (k : String) (v : Bytes) : dirInsert [] k v = [(k, v)] := rfl

theorem dirInsert_cons (n : String) (c : Bytes) (d : Dir) (k : String) (v : Bytes) :
    dirInsert ((n, c) :: d) k v =
      if n = k then (k, v) :: d else (n, c) :: dirInsert d k v := by
  rw [dirInsert.eq_def]

theorem dirAppend_nil (k : String) (v : Bytes) : dirAppend [] k v = [] := rfl

theorem dirAppend_cons (n : String) (c : Bytes) (d : Dir) (k : String) (v : Bytes) :
    dirAppend ((n, c) :: d) k v =
      if n = k then (n, c ++ v) :: d else (n, c) :: dirAppend d k v := by
  rw [dirAppend.eq_def]

theorem dirLookup_insert_self (d : Dir) (k : String) (v : Bytes) :
    dirLookup (dirInsert d k v) k = some v := by
  induction d with
  | nil => rw [dirInsert_nil, dirLookup_cons, if_pos rfl]
  | cons e d ih =>
    obtain ⟨n, c⟩ := e
    rw [dirInsert_cons]
    by_cases h : n = k
    · rw [if_pos h, dirLookup_cons, if_pos rfl]
    · rw [if_neg h, dirLookup_cons, if_neg h]
      exact ih

theorem dirLookup_insert_ne (d : Dir) (k k' : String) (v : Bytes) (h : k' ≠ k) :
    dirLookup (dirInsert d k v) k' = dirLookup d k' := by
  induction d with
  | nil =>
    rw [dirInsert_nil, dirLookup_cons, if_neg (fun hh => h hh.symm), dirLookup_nil]
  | cons e d ih =>
    obtain ⟨n, c⟩ := e
    rw [dirInsert_cons]
    by_cases hn : n = k
    · subst hn
      rw [if_pos rfl, dirLookup_cons, dirLookup_cons,
        if_neg (fun hh => h hh.symm), if_neg (fun hh => h hh.symm)]
    · rw [if_neg hn, dirLookup_cons, dirLookup_cons]
      by_cases hk : n = k'
      · rw [if_pos hk, if_pos hk]
      · rw [if_neg hk, if_neg hk]
        exact ih

theorem dirInsert_notMem (d : Dir) (k : String) (v : Bytes) (h : k ∉ dirNames d) :
    dirInsert d k v = d ++ [(k, v)] := by
  induction d with
  | nil => rfl
  | cons e d ih =>
    obtain ⟨n, c⟩ := e
    rw [dirNames_cons, List.mem_cons] at h
    push_neg at h
    rw [dirInsert_cons, if_neg (fun hh => h.1 hh.symm), List.cons_append, ih h.2]

theorem dirNames_insert_mem (d : Dir) (k : String) (v : Bytes) (h : k ∈ dirNames d) :
    dirNames (dirInsert d k v) = dirNames d := by
  induction d with
  | nil => simp [dirNames_nil] at h
  | cons e d ih =>
    obtain ⟨n, c⟩ := e
    rw [dirNames_cons, List.mem_cons] at h
    rw [dirInsert_cons]
    by_cases hn : n = k
    · rw [if_pos hn, dirNames_cons, dirNames_cons, hn]
    · have hk : k ∈ dirNames d := by
        rcases h with h | h
        · exact absurd h.symm hn
        · exact h
      rw [if_neg hn, dirNames_cons, dirNames_cons, ih hk]

theorem dirNames_insert_notMem (d : Dir) (k : String) (v : Bytes) (h : k ∉ dirNames d) :
    dirNames (dirInsert d k v) = dirNames d ++ [k] := by
  rw [dirInsert_notMem d k v h, dirNames, List.map_append]
  rfl

theorem dirLookup_append (d1 d2 : Dir) (k : String) :
    dirLookup (d1 ++ d2) k =
      match dirLookup d1 k with
      | some v => some v
      | none => dirLookup d2 k := by
  induction d1 with
  | nil => rfl
  | cons e d ih =>
    obtain ⟨n, c⟩ := e
    rw [List.cons_append, dirLookup_cons, dirLookup_cons]
    by_cases h : n = k
    · rw [if_pos h, if_pos h]
    · rw [if_neg h, if_neg h]
      exact ih

theorem dirAppend_lookup_self (d : Dir) (k : String) (v : Bytes) :
    dirLookup (dirAppend d k v) k = (dirLookup d k).map (fun c => c ++ v) := by
  induction d with
  | nil => rfl
  | cons e d ih =>
    obtain ⟨n, c⟩ := e
    rw [dirAppend_cons]
    by_cases h : n = k
    · simp only [if_pos h, dirLookup_cons]
      rfl
    · simp only [if_neg h, dirLookup_cons]
      exact ih

theorem dirAppend_lookup_ne (d : Dir) (k k' : String) (v : Bytes) (h : k' ≠ k) :
    dirLookup (dirAppend d k v) k' = dirLookup d k' := by
  induction d with
  | nil => rfl
  | cons e d ih =>
    obtain ⟨n, c⟩ := e
    rw [dirAppend_cons, dirLookup_cons]
    by_cases hn : n = k
    · rw [if_pos hn, dirLookup_cons]
      by_cases hk : n = k'
      · exact absurd (hk.symm.trans hn) h
      · rw [if_neg hk, if_neg hk]
    · rw [if_neg hn, dirLookup_cons]
      by_cases hk : n = k'
      · rw [if_pos hk, if_pos hk]
      · rw [if_neg hk, if_neg hk]
        exact ih

theorem dirNames_dirAppend (d : Dir) (k : String) (v : Bytes) :
    dirNames (dirAppend d k v) = dirNames d := by
  induction d with
  | nil => rfl
  | cons e d ih =>
    obtain ⟨n, c⟩ := e
    rw [dirAppend_cons]
    by_cases h : n = k
    · rw [if_pos h, dirNames_cons, dirNames_cons]
    · rw [if_neg h, dirNames_cons, dirNames_cons, ih]

theorem dirLookup_isSome_of_mem (d : Dir) (k : String) (h : k ∈ dirNames d) :
    ∃ bs, dirLookup d k = some bs := by
  induction d with
  | nil => simp [dirNames_nil] at h
  | cons e d ih =>
    obtain ⟨n, c⟩ := e
    rw [dirNames_cons, List.mem_cons] at h
    rw [dirLookup_cons]
    by_cases hn : n = k
    · rw [if_pos hn]
      exact ⟨c, rfl⟩
    · rw [if_neg hn]
      apply ih
      rcases h with h | h
      · exact absurd h.symm hn
      · exact h

/-! #### Chunk arithmetic -/

theorem splitChunks_nil (k : Nat) : splitChunks k [] = [] := rfl

theorem splitChunks_cons (k : Nat) (data : Bytes) (hk : k ≠ 0) (hd : data ≠ []) :
    splitChunks k data = data.take k :: splitChunks k (data.drop k) := by
  rw [splitChunks_eq, if_neg (by simp [hk, hd])]

/-- Concatenating the chunks in order restores the input bytes. -/
theorem splitChunks_flatten (k : Nat) (hk : 0 < k) (data : Bytes) :
    (splitChunks k data).flatten = data := by
  suffices H : ∀ (n : Nat) (data : Bytes), data.length ≤ n → (splitChunks k data).flatten = data by
    exact H data.length data le_rfl
  intro n
  induction n with
  | zero =>
    intro data h
    have : data = [] := by
      cases data with
      | nil => rfl
      | cons b bs => simp at h
    subst this
    rfl
  | succ m ih =>
    intro data h
    by_cases hd : data = []
    · subst hd
      rfl
    · rw [splitChunks_cons k data (by omega) hd, List.flatten_cons]
      rw [ih (data.drop k) (by
        have h1 : 0 < data.length := List.length_pos.mpr hd
        simp only [List.length_drop]
        omega)]
      exact List.take_append_drop k data

/-- The number of chunks for a non-empty input is `⌈N / k⌉`. -/
theorem splitChunks_length (k : Nat) (hk : 0 < k) (data : Bytes) (hd : data ≠ []) :
    (splitChunks k data).length = (data.length + k - 1) / k := by
  suffices H : ∀ (n : Nat) (data : Bytes), data.length ≤ n → data ≠ [] →
      (splitChunks k data).length = (data.length + k - 1) / k by
    exact H data.length data le_rfl hd
  intro n
  induction n with
  | zero =>
    intro data h hd
    cases data with
    | nil => exact absurd rfl hd
    | cons b bs => simp at h
  | succ m ih =>
    intro data h hd
    rw [splitChunks_cons k data (by omega) hd, List.length_cons]
    have h1 : 0 < data.length := List.length_pos.mpr hd
    by_cases hsmall : data.length ≤ k
    · have hdrop : data.drop k = [] := List.drop_eq_nil_of_le hsmall
      rw [hdrop, splitChunks_nil]
      have hone : (data.length + k - 1) / k = 1 :=
        Nat.div_eq_of_lt_le (by omega) (by omega)
      rw [hone]
      rfl
    · push_neg at hsmall
      have hdrop_ne : data.drop k ≠ [] := by
        intro hh
        have := List.drop_eq_nil_iff.mp hh
        omega
      rw [ih (data.drop k) (by simp only [List.length_drop]; omega) hdrop_ne]
      simp only [List.length_drop]
      have e1 : data.length - k + k - 1 = data.length - 1 := by omega
      have e2 : data.length + k - 1 = (data.length - 1) + k := by omega
      rw [e1, e2, Nat.add_div_right _ hk]

/-- Every chunk except the last has length exactly `k`. -/
theorem splitChunks_dropLast (k : Nat) (hk : 0 < k) (data : Bytes) :
    ∀ c ∈ (splitChunks k data).dropLast, c.length = k := by
  suffices H : ∀ (n : Nat) (data : Bytes), data.length ≤ n →
      ∀ c ∈ (splitChunks k data).dropLast, c.length = k by
    exact H data.length data le_rfl
  intro n
  induction n with
  | zero =>
    intro data h c hc
    cases data with
    | nil => simp [splitChunks_nil] at hc
    | cons b bs => simp at h
  | succ m ih =>
    intro data h c hc
    by_cases hd : data = []
    · subst hd
      simp [splitChunks_nil] at hc
    · rw [splitChunks_cons k data (by omega) hd] at hc
      have h1 : 0 < data.length := List.length_pos.mpr hd
      by_cases hrest : splitChunks k (data.drop k) = []
      · rw [hrest] at hc
        simp at hc
      · rw [List.dropLast_cons_of_ne_nil hrest, List.mem_cons] at hc
        rcases hc with hc | hc
        · subst hc
          have hlong : k ≤ data.length := by
            by_contra hshort
            push_neg at hshort
            have : data.drop k = [] := List.drop_eq_nil_of_le (by omega)
            rw [this, splitChunks_nil] at hrest
            exact hrest rfl
          simp [List.length_take]
          omega
        · exact ih (data.drop k) (by simp only [List.length_drop]; omega) c hc

/-- The last chunk has length `N mod k`, or `k` when `k` divides `N`. -/
theorem splitChunks_getLast (k : Nat) (hk : 0 < k) (data : Bytes) (hd : data ≠ []) :
    ∃ last, (splitChunks k data).getLast? = some last ∧
      last.length = (if data.length % k = 0 then k else data.length % k) := by
  suffices H : ∀ (n : Nat) (data : Bytes), data.length ≤ n → data ≠ [] →
      ∃ last, (splitChunks k data).getLast? = some last ∧
        last.length = (if data.length % k = 0 then k else data.length % k) by
    exact H data.length data le_rfl hd
  intro n
  induction n with
  | zero =>
    intro data h hd
    cases data with
    | nil => exact absurd rfl hd
    | cons b bs => simp at h
  | succ m ih =>
    intro data h hd
    have h1 : 0 < data.length := List.length_pos.mpr hd
    rw [splitChunks_cons k data (by omega) hd]
    by_cases hsmall : data.length ≤ k
    · have hdrop : data.drop k = [] := List.drop_eq_nil_of_le hsmall
      rw [hdrop, splitChunks_nil]
      refine ⟨data.take k, rfl, ?_⟩
      simp only [List.length_take]
      by_cases heq : data.length = k
      · rw [heq, Nat.mod_self, if_pos rfl]
        omega
      · have hlt : data.length < k := by omega
        rw [Nat.mod_eq_of_lt hlt, if_neg (by omega)]
        omega
    · push_neg at hsmall
      have hdrop_ne : data.drop k ≠ [] := by
        intro hh
        have := List.drop_eq_nil_iff.mp hh
        omega
      obtain ⟨last, hlast, hlen⟩ := ih (data.drop k)
        (by simp only [List.length_drop]; omega) hdrop_ne
      refine ⟨last, ?_, ?_⟩
      · rw [List.getLast?_cons, hlast]
        rfl
      · rw [hlen]
        simp only [List.length_drop]
        have : (data.length - k) % k = data.length % k := by
          conv_rhs => rw [Nat.mod_eq_sub_mod (by omega)]
        rw [this]

/-- No chunk is empty. -/
theorem splitChunks_ne_nil (k : Nat) (hk : 0 < k) (data : Bytes) :
    ∀ c ∈ splitChunks k data, c ≠ [] := by
  suffices H : ∀ (n : Nat) (data : Bytes), data.length ≤ n →
      ∀ c ∈ splitChunks k data, c ≠ [] by
    exact H data.length data le_rfl
  intro n
  induction n with
  | zero =>
    intro data h c hc
    cases data with
    | nil => simp [splitChunks_nil] at hc
    | cons b bs => simp at h
  | succ m ih =>
    intro data h c hc
    by_cases hd : data = []
    · subst hd
      simp [splitChunks_nil] at hc
    · rw [splitChunks_cons k data (by omega) hd, List.mem_cons] at hc
      have h1 : 0 < data.length := List.length_pos.mpr hd
      rcases hc with hc | hc
      · subst hc
        intro hh
        have := congrArg List.length hh
        simp only [List.length_take, List.length_nil] at this
        omega
      · exact ih (data.drop k) (by simp only [List.length_drop]; omega) c hc

/-- A bound on the input length bounds the chunk count. -/
theorem splitChunks_length_le (k : Nat) (hk : 0 < k) (data : Bytes) (m : Nat)
    (h : data.length ≤ m * k) : (splitChunks k data).length ≤ m := by
  by_cases hd : data = []
  · subst hd
    simp [splitChunks_nil]
  · rw [splitChunks_length k hk data hd]
    have h1 : 0 < data.length := List.length_pos.mpr hd
    calc (data.length + k - 1) / k ≤ (m * k + k - 1) / k := Nat.div_le_div_right (by omega)
      _ = m := Nat.div_eq_of_lt_le (by omega) (by rw [Nat.succ_mul]; omega)

/-! #### The directory produced by the split loop -/

theorem dirNames_chunkEntriesFrom (cs : List Bytes) : ∀ i : Nat,
    dirNames (chunkEntriesFrom i cs) = chunkNamesFrom i cs := by
  induction cs with
  | nil => intro i; rfl
  | cons c cs ih =>
    intro i
    rw [chunkEntriesFrom, chunkNamesFrom, dirNames_cons, ih]

theorem mem_chunkNamesFrom (cs : List Bytes) : ∀ (i : Nat) (x : String),
    x ∈ chunkNamesFrom i cs ↔ ∃ j, j < cs.length ∧ x = chunkName (i + j) := by
  induction cs with
  | nil =>
    intro i x
    rw [chunkNamesFrom]
    simp
  | cons c cs ih =>
    intro i x
    rw [chunkNamesFrom, List.mem_cons, ih (i + 1)]
    constructor
    · rintro (rfl | ⟨j, hj, rfl⟩)
      · exact ⟨0, by simp, by rw [Nat.add_zero]⟩
      · exact ⟨j + 1, by simp only [List.length_cons]; omega,
          by rw [show i + 1 + j = i + (j + 1) from by omega]⟩
    · rintro ⟨j, hj, rfl⟩
      have hj2 : j < cs.length + 1 := by simpa using hj
      cases j with
      | zero => exact Or.inl (by rw [Nat.add_zero])
      | succ j' =>
        exact Or.inr ⟨j', by omega, by rw [show i + 1 + j' = i + (j' + 1) from by omega]⟩

/-- The chunk names written by the split loop are strictly sorted, as long
as every index stays below 1000. -/
theorem chunkNamesFrom_pairwise (cs : List Bytes) : ∀ i : Nat, i + cs.length ≤ 1000 →
    (chunkNamesFrom i cs).Pairwise (fun a b => strLtB a b = true) := by
  induction cs with
  | nil => intro i _; rw [chunkNamesFrom]; exact List.Pairwise.nil
  | cons c cs ih =>
    intro i hb
    rw [chunkNamesFrom, List.pairwise_cons]
    refine ⟨?_, ih (i + 1) (by simp only [List.length_cons] at hb; omega)⟩
    intro x hx
    obtain ⟨j, hj, rfl⟩ := (mem_chunkNamesFrom cs (i + 1) x).mp hx
    apply chunkName_lt
    · omega
    · simp only [List.length_cons] at hb
      omega

theorem writeChunksAux_eq (cs : List Bytes) : ∀ (d : Dir) (i : Nat),
    (∀ j, j < cs.length → chunkName (i + j) ∉ dirNames d) → i + cs.length ≤ 1000 →
    writeChunksAux d i cs = d ++ chunkEntriesFrom i cs := by
  induction cs with
  | nil =>
    intro d i _ _
    rw [writeChunksAux, chunkEntriesFrom, List.append_nil]
  | cons c cs ih =>
    intro d i hfresh hb
    simp only [List.length_cons] at hb
    rw [writeChunksAux, chunkEntriesFrom]
    have h0 : chunkName i ∉ dirNames d := by
      have := hfresh 0 (by simp)
      rw [Nat.add_zero] at this
      exact this
    rw [ih (dirInsert d (chunkName i) c) (i + 1) ?_ (by omega)]
    · rw [dirInsert_notMem d (chunkName i) c h0, List.append_assoc]
      rfl
    · intro j hj
      rw [dirNames_insert_notMem d (chunkName i) c h0]
      rw [List.mem_append]
      push_neg
      constructor
      · have := hfresh (j + 1) (by simp only [List.length_cons]; omega)
        rw [show i + (j + 1) = i + 1 + j from by omega] at this
        exact this
      · simp only [List.mem_singleton]
        intro hh
        have := chunkName_inj (i + 1 + j) i (by omega) (by omega) hh
        omega

theorem lookup_chunkEntriesFrom (cs : List Bytes) : ∀ (i : Nat) (j : Nat) (hj : j < cs.length),
    i + cs.length ≤ 1000 →
    dirLookup (chunkEntriesFrom i cs) (chunkName (i + j)) = some (cs.get ⟨j, hj⟩) := by
  induction cs with
  | nil =>
    intro i j hj _
    simp at hj
  | cons c cs ih =>
    intro i j hj hb
    simp only [List.length_cons] at hb
    have hj2 : j < cs.length + 1 := by simpa using hj
    rw [chunkEntriesFrom, dirLookup_cons]
    cases j with
    | zero =>
      rw [if_pos (by rw [Nat.add_zero])]
      rfl
    | succ j' =>
      rw [if_neg ?_]
      · have := ih (i + 1) j' (by omega) (by omega)
        rw [show i + 1 + j' = i + (j' + 1) from by omega] at this
        rw [this]
        rfl
      · intro hh
        have := chunkName_inj i (i + (j' + 1)) (by omega) (by omega) hh
        omega

/-- If a directory holds each chunk name with the right content, looking the
names up in order and concatenating restores the chunk list. -/
theorem map_lookup_chunkNamesFrom (cs : List Bytes) : ∀ (d : Dir) (i : Nat),
    (∀ (j : Nat) (hj : j < cs.length), dirLookup d (chunkName (i + j)) = some (cs.get ⟨j, hj⟩)) →
    (chunkNamesFrom i cs).map (fun cn => (dirLookup d cn).getD []) = cs := by
  induction cs with
  | nil => intro d i _; rfl
  | cons c cs ih =>
    intro d i h
    rw [chunkNamesFrom, List.map_cons]
    have h0 := h 0 (by simp)
    rw [Nat.add_zero] at h0
    rw [h0]
    have hrest : ∀ (j : Nat) (hj : j < cs.length),
        dirLookup d (chunkName (i + 1 + j)) = some (cs.get ⟨j, hj⟩) := by
      intro j hj
      have := h (j + 1) (by simp only [List.length_cons]; omega)
      rw [show i + (j + 1) = i + 1 + j from by omega] at this
      exact this
    rw [ih d (i + 1) hrest]
    rfl

/-! #### The concatenation loop -/

theorem joinLookups_nil (d : Dir) : joinLookups d [] = [] := rfl

theorem joinLookups_cons (d : Dir) (cn : String) (rest : List String) :
    joinLookups d (cn :: rest) = (dirLookup d cn).getD [] ++ joinLookups d rest := by
  rw [joinLookups, joinLookups, List.map_cons, List.flatten_cons]

theorem concatChunks_nil (d : Dir) (out : String) : concatChunks d out [] = some d := rfl

theorem concatChunks_cons (d : Dir) (out cn : String) (rest : List String) :
    concatChunks d out (cn :: rest) =
      match dirLookup d cn with
      | none => none
      | some cbs => concatChunks (dirAppend d out cbs) out rest := by
  rw [concatChunks.eq_def]

/-- The concatenation loop succeeds whenever every listed name is an entry,
and it modifies no entry other than the output. -/
theorem concatChunks_total (l : List String) : ∀ (d : Dir) (out : String),
    (∀ cn ∈ l, cn ∈ dirNames d) →
    ∃ d', concatChunks d out l = some d' ∧
      (∀ k, k ≠ out → dirLookup d' k = dirLookup d k) ∧ dirNames d' = dirNames d := by
  induction l with
  | nil =>
    intro d out _
    exact ⟨d, rfl, fun _ _ => rfl, rfl⟩
  | cons cn rest ih =>
    intro d out hmem
    obtain ⟨cbs, hcbs⟩ := dirLookup_isSome_of_mem d cn (hmem cn (by simp))
    obtain ⟨d', hd', hframe, hnames⟩ := ih (dirAppend d out cbs) out (by
      intro c hc
      rw [dirNames_dirAppend]
      exact hmem c (by simp [hc]))
    refine ⟨d', ?_, ?_, ?_⟩
    · rw [concatChunks_cons, hcbs]
      exact hd'
    · intro k hk
      rw [hframe k hk, dirAppend_lookup_ne d out k cbs hk]
    · rw [hnames, dirNames_dirAppend]

/-- Full description of the concatenation loop when the output is disjoint
from the listed names: the output accumulates the listed contents in order,
everything else is untouched. -/
theorem concatChunks_ok (l : List String) : ∀ (d : Dir) (out : String) (acc : Bytes),
    dirLookup d out = some acc →
    (∀ cn ∈ l, cn ≠ out) →
    (∀ cn ∈ l, cn ∈ dirNames d) →
    ∃ d', concatChunks d out l = some d' ∧
      dirLookup d' out = some (acc ++ joinLookups d l) ∧
      (∀ k, k ≠ out → dirLookup d' k = dirLookup d k) := by
  induction l with
  | nil =>
    intro d out acc hacc _ _
    refine ⟨d, rfl, ?_, fun _ _ => rfl⟩
    rw [joinLookups]
    simp [hacc]
  | cons cn rest ih =>
    intro d out acc hacc hne hmem
    obtain ⟨cbs, hcbs⟩ := dirLookup_isSome_of_mem d cn (hmem cn (by simp))
    have hcn_ne : cn ≠ out := hne cn (by simp)
    have hacc2 : dirLookup (dirAppend d out cbs) out = some (acc ++ cbs) := by
      rw [dirAppend_lookup_self, hacc]
      rfl
    have hne2 : ∀ c ∈ rest, c ≠ out := fun c hc => hne c (by simp [hc])
    have hmem2 : ∀ c ∈ rest, c ∈ dirNames (dirAppend d out cbs) := by
      intro c hc
      rw [dirNames_dirAppend]
      exact hmem c (by simp [hc])
    obtain ⟨d', hd', hout, hframe⟩ := ih (dirAppend d out cbs) out (acc ++ cbs) hacc2 hne2 hmem2
    refine ⟨d', ?_, ?_, ?_⟩
    · rw [concatChunks_cons, hcbs]
      exact hd'
    · rw [hout]
      have hsame : joinLookups (dirAppend d out cbs) rest = joinLookups d rest := by
        rw [joinLookups, joinLookups]
        congr 1
        apply List.map_congr_left
        intro c hc
        rw [dirAppend_lookup_ne d out c cbs (hne2 c hc)]
      rw [hsame, joinLookups_cons, hcbs]
      simp [List.append_assoc]
    · intro k hk
      rw [hframe k hk, dirAppend_lookup_ne d out k cbs hk]

/-! #### Reconstruction -/

/-- The chunk enumeration contains exactly the entries whose name starts
with `"chunk"`. -/
theorem mem_chunkListOf (d : Dir) (cn : String) :
    cn ∈ chunkListOf d ↔ cn ∈ dirNames d ∧ strStarts cn "chunk" = true := by
  rw [chunkListOf, mem_sortStr, List.mem_filter]

/-- `doRecon` always succeeds, returns the chosen name, and modifies no
entry other than the output. -/
theorem doRecon_ok (d : Dir) (name : String) :
    ∃ d', doRecon d name = ReconResult.ok name d' ∧
      (∀ k, k ≠ name → dirLookup d' k = dirLookup d k) := by
  obtain ⟨d2, hc, hframe, -⟩ := concatChunks_total (chunkListOf (dirInsert d name []))
    (dirInsert d name []) name (by
      intro cn hcn
      exact ((mem_chunkListOf _ cn).mp hcn).1)
  refine ⟨d2, ?_, ?_⟩
  · rw [doRecon]
    rw [hc]
  · intro k hk
    rw [hframe k hk, dirLookup_insert_ne d name k [] hk]

theorem reconstruct_meta_none (d : Dir) (h : dirLookup d "info.json" = none) :
    reconstruct_file d = doRecon d defaultName := by
  rw [reconstruct_file, h]

theorem reconstruct_meta_bad_utf8 (d : Dir) (bs : Bytes)
    (h : dirLookup d "info.json" = some bs) (hdec : utf8DecodeList bs = none) :
    reconstruct_file d = ReconResult.err IOErrorKind.invalidData d := by
  rw [reconstruct_file, h]
  simp only [hdec]

theorem reconstruct_meta_decoded (d : Dir) (bs : Bytes) (cs : List Char)
    (h : dirLookup d "info.json" = some bs) (hdec : utf8DecodeList bs = some cs) :
    reconstruct_file d = doRecon d
      (match (jsonParse ⟨cs⟩).bind (fun j => (jsonGet j "original_filename").bind jsonAsStr) with
        | some n => n
        | none => defaultName) := by
  rw [reconstruct_file, h]
  simp only [hdec]

/-! #### The split/reconstruct round trip -/

theorem CHUNK_SIZE_pos : 0 < CHUNK_SIZE := by decide

/-- Description of a successful split into an absent or empty target
directory: the resulting directory holds the metadata file followed by the
chunk files in index order. -/
theorem split_file_ok (p : List String) (name : String) (data : Bytes) (savedir : Option Dir)
    (hsave : savedir = none ∨ savedir = some []) (hfile : fileName p = some name)
    (hbound : data.length ≤ 1000 * CHUNK_SIZE) :
    split_file ⟨p, some data⟩ savedir = SplitResult.ok
      (("info.json", encodeInfo name) :: chunkEntriesFrom 0 (splitChunks CHUNK_SIZE data)) := by
  have hd : savedir.getD [] = [] := by rcases hsave with rfl | rfl <;> rfl
  have hcount : (splitChunks CHUNK_SIZE data).length ≤ 1000 :=
    splitChunks_length_le CHUNK_SIZE CHUNK_SIZE_pos data 1000 hbound
  rw [split_file]
  simp only [hd, hfile, ne_eq, not_true_eq_false, if_false]
  rw [dirInsert_nil]
  rw [writeChunksAux_eq (splitChunks CHUNK_SIZE data) [("info.json", encodeInfo name)] 0 ?_ ?_]
  · rw [List.singleton_append]
  · intro j hj
    rw [dirNames_cons, dirNames_nil]
    simp only [List.mem_singleton]
    exact chunkName_ne_info (0 + j)
  · omega

/-- Reconstruction of a directory produced by a successful split recovers
the original bytes under the original base name, provided the base name does
not itself start with `"chunk"` and at most 1000 chunks were written. -/
theorem reconstruct_of_split (name : String) (data : Bytes)
    (hname : strStarts name "chunk" = false)
    (hbound : data.length ≤ 1000 * CHUNK_SIZE) :
    ∃ d', reconstruct_file
        (("info.json", encodeInfo name) :: chunkEntriesFrom 0 (splitChunks CHUNK_SIZE data))
      = ReconResult.ok name d' ∧ dirLookup d' name = some data := by
  have hcount : (splitChunks CHUNK_SIZE data).length ≤ 1000 :=
    splitChunks_length_le _ CHUNK_SIZE_pos data 1000 hbound
  have hlook : dirLookup
      (("info.json", encodeInfo name) :: chunkEntriesFrom 0 (splitChunks CHUNK_SIZE data))
      "info.json" = some (encodeInfo name) := by
    rw [dirLookup_cons, if_pos rfl]
  have hdec : utf8DecodeList (encodeInfo name) = some (infoJsonString name).data :=
    utf8DecodeList_encodeChars _
  have hrec : reconstruct_file
      (("info.json", encodeInfo name) :: chunkEntriesFrom 0 (splitChunks CHUNK_SIZE data))
      = doRecon (("info.json", encodeInfo name) :: chunkEntriesFrom 0 (splitChunks CHUNK_SIZE data))
        name := by
    rw [reconstruct_meta_decoded _ _ _ hlook hdec]
    have heta : (⟨(infoJsonString name).data⟩ : String) = infoJsonString name := rfl
    rw [heta, extractName_info]
  have hnamesD : dirNames
      (("info.json", encodeInfo name) :: chunkEntriesFrom 0 (splitChunks CHUNK_SIZE data))
      = "info.json" :: chunkNamesFrom 0 (splitChunks CHUNK_SIZE data) := by
    rw [dirNames_cons, dirNames_chunkEntriesFrom]
  have hname_ne_chunk : ∀ cn ∈ chunkNamesFrom 0 (splitChunks CHUNK_SIZE data), cn ≠ name := by
    intro cn hcn hh
    obtain ⟨j, hj, rfl⟩ := (mem_chunkNamesFrom _ 0 cn).mp hcn
    rw [← hh, strStarts_chunkName] at hname
    simp at hname
  have hchunk_ne_name : ∀ j : Nat, chunkName j ≠ name := by
    intro j hh
    rw [← hh, strStarts_chunkName] at hname
    simp at hname
  have hlookD : ∀ (j : Nat) (hj : j < (splitChunks CHUNK_SIZE data).length),
      dirLookup (("info.json", encodeInfo name) :: chunkEntriesFrom 0 (splitChunks CHUNK_SIZE data))
        (chunkName j) = some ((splitChunks CHUNK_SIZE data).get ⟨j, hj⟩) := by
    intro j hj
    rw [dirLookup_cons, if_neg (fun hh => chunkName_ne_info j hh.symm)]
    have := lookup_chunkEntriesFrom (splitChunks CHUNK_SIZE data) 0 j hj (by omega)
    rw [Nat.zero_add] at this
    exact this
  have hsub : ∀ cn ∈ chunkNamesFrom 0 (splitChunks CHUNK_SIZE data),
      cn ∈ dirNames (dirInsert
        (("info.json", encodeInfo name) :: chunkEntriesFrom 0 (splitChunks CHUNK_SIZE data))
        name []) := by
    intro cn hcn
    have hcnD : cn ∈ dirNames
        (("info.json", encodeInfo name) :: chunkEntriesFrom 0 (splitChunks CHUNK_SIZE data)) := by
      rw [hnamesD]
      exact List.mem_cons_of_mem _ hcn
    by_cases hmem : name ∈ dirNames
        (("info.json", encodeInfo name) :: chunkEntriesFrom 0 (splitChunks CHUNK_SIZE data))
    · rw [dirNames_insert_mem _ name [] hmem]
      exact hcnD
    · rw [dirNames_insert_notMem _ name [] hmem]
      exact List.mem_append_left _ hcnD
  have hfiltD : ((dirNames
      (("info.json", encodeInfo name) :: chunkEntriesFrom 0 (splitChunks CHUNK_SIZE data))).filter
        (fun n => strStarts n "chunk")) = chunkNamesFrom 0 (splitChunks CHUNK_SIZE data) := by
    rw [hnamesD, List.filter_cons_of_neg (by rw [strStarts_info]; simp)]
    rw [List.filter_eq_self.mpr ?_]
    intro a ha
    obtain ⟨j, hj, rfl⟩ := (mem_chunkNamesFrom _ 0 a).mp ha
    exact strStarts_chunkName _
  have hfilter : ((dirNames (dirInsert
      (("info.json", encodeInfo name) :: chunkEntriesFrom 0 (splitChunks CHUNK_SIZE data))
      name [])).filter (fun n => strStarts n "chunk"))
      = chunkNamesFrom 0 (splitChunks CHUNK_SIZE data) := by
    by_cases hmem : name ∈ dirNames
        (("info.json", encodeInfo name) :: chunkEntriesFrom 0 (splitChunks CHUNK_SIZE data))
    · rw [dirNames_insert_mem _ name [] hmem, hfiltD]
    · rw [dirNames_insert_notMem _ name [] hmem, List.filter_append, hfiltD]
      rw [List.filter_cons_of_neg (by rw [hname]; simp), List.filter_nil, List.append_nil]
  have hsorted : chunkListOf (dirInsert
      (("info.json", encodeInfo name) :: chunkEntriesFrom 0 (splitChunks CHUNK_SIZE data))
      name []) = chunkNamesFrom 0 (splitChunks CHUNK_SIZE data) := by
    rw [chunkListOf, hfilter,
      sortStr_pairwise_id _ (chunkNamesFrom_pairwise _ 0 (by omega))]
  have hacc : dirLookup (dirInsert
      (("info.json", encodeInfo name) :: chunkEntriesFrom 0 (splitChunks CHUNK_SIZE data))
      name []) name = some [] := dirLookup_insert_self _ name []
  have hlookd1 : ∀ (j : Nat) (hj : j < (splitChunks CHUNK_SIZE data).length),
      dirLookup (dirInsert
        (("info.json", encodeInfo name) :: chunkEntriesFrom 0 (splitChunks CHUNK_SIZE data))
        name []) (chunkName (0 + j)) = some ((splitChunks CHUNK_SIZE data).get ⟨j, hj⟩) := by
    intro j hj
    rw [Nat.zero_add, dirLookup_insert_ne _ name (chunkName j) [] (hchunk_ne_name j)]
    exact hlookD j hj
  have hjoin : joinLookups (dirInsert
      (("info.json", encodeInfo name) :: chunkEntriesFrom 0 (splitChunks CHUNK_SIZE data))
      name []) (chunkNamesFrom 0 (splitChunks CHUNK_SIZE data)) = data := by
    rw [joinLookups, map_lookup_chunkNamesFrom _ _ 0 hlookd1]
    exact splitChunks_flatten CHUNK_SIZE CHUNK_SIZE_pos data
  obtain ⟨d2, hc, hout, -⟩ := concatChunks_ok (chunkNamesFrom 0 (splitChunks CHUNK_SIZE data))
    (dirInsert (("info.json", encodeInfo name) :: chunkEntriesFrom 0 (splitChunks CHUNK_SIZE data))
      name [])
    name [] hacc hname_ne_chunk hsub
  refine ⟨d2, ?_, ?_⟩
  · rw [hrec, doRecon, hsorted, hc]
  · rw [hout, hjoin, List.nil_append]

/-! ## Claims -/

/-- C2: for every source file of N > 0 bytes, the split loop produces
exactly `⌈N / 5242880⌉` chunks; every chunk except the last has length
exactly 5242880; the last chunk has length `N mod 5242880`, or 5242880 when
N is an exact multiple of the chunk size; and no empty trailing chunk is
ever created. -/
theorem C2_chunk_sizing (data : Bytes) (hd : data ≠ []) :
    (splitChunks CHUNK_SIZE data).length = (data.length + CHUNK_SIZE - 1) / CHUNK_SIZE ∧
    (∀ c ∈ (splitChunks CHUNK_SIZE data).dropLast, c.length = CHUNK_SIZE) ∧
    (∃ last, (splitChunks CHUNK_SIZE data).getLast? = some last ∧
      last.length = if data.length % CHUNK_SIZE = 0 then CHUNK_SIZE
        else data.length % CHUNK_SIZE) ∧
    (∀ c ∈ splitChunks CHUNK_SIZE data, c ≠ []) :=
  ⟨splitChunks_length CHUNK_SIZE CHUNK_SIZE_pos data hd,
   splitChunks_dropLast CHUNK_SIZE CHUNK_SIZE_pos data,
   splitChunks_getLast CHUNK_SIZE CHUNK_SIZE_pos data hd,
   splitChunks_ne_nil CHUNK_SIZE CHUNK_SIZE_pos data⟩

/-- Witness for C2 at the three-byte input `[1, 2, 3]`. -/
theorem C2_chunk_sizing_witness :
    ([1, 2, 3] : Bytes) ≠ [] ∧
    ((splitChunks CHUNK_SIZE [1, 2, 3]).length
        = ([1, 2, 3].length + CHUNK_SIZE - 1) / CHUNK_SIZE ∧
      (∀ c ∈ (splitChunks CHUNK_SIZE [1, 2, 3]).dropLast, c.length = CHUNK_SIZE) ∧
      (∃ last, (splitChunks CHUNK_SIZE [1, 2, 3]).getLast? = some last ∧
        last.length = if [1, 2, 3].length % CHUNK_SIZE = 0 then CHUNK_SIZE
          else [1, 2, 3].length % CHUNK_SIZE) ∧
      (∀ c ∈ splitChunks CHUNK_SIZE [1, 2, 3], c ≠ [])) :=
  ⟨by decide, C2_chunk_sizing [1, 2, 3] (by decide)⟩

/-- C4: splitting into an existing directory that already contains at least
one entry fails with the Rust error kind `AlreadyExists` and changes
nothing: the resulting directory state is exactly the pre-existing one, with
no metadata file and no chunk file written. -/
theorem C4_already_populated (src : SrcFile) (d : Dir) (hd : d ≠ []) :
    split_file src (some d) = SplitResult.err IOErrorKind.alreadyExists d := by
  rw [split_file]
  simp only [Option.getD_some]
  rw [if_pos hd]

/-- Witness for C4: a one-entry target directory. -/
theorem C4_already_populated_witness :
    ([("x", [2])] : Dir) ≠ [] ∧
    split_file ⟨["a"], some [1]⟩ (some [("x", [2])])
      = SplitResult.err IOErrorKind.alreadyExists [("x", [2])] :=
  ⟨by decide, C4_already_populated ⟨["a"], some [1]⟩ [("x", [2])] (by decide)⟩

/-- C6: for every split producing at most 999 chunks, sorting the written
chunk names in byte-lexicographic order yields exactly the original split
order (because each name is the fixed tag followed by a 3-digit zero-padded
decimal index). -/
theorem C6_ordering (cs : List Bytes) (h : cs.length ≤ 999) :
    sortStr (chunkNamesFrom 0 cs) = chunkNamesFrom 0 cs :=
  sortStr_pairwise_id _ (chunkNamesFrom_pairwise cs 0 (by omega))

/-- Witness for C6 at a three-chunk split. -/
theorem C6_ordering_witness :
    ([[1], [2], [3]] : List Bytes).length ≤ 999 ∧
    sortStr (chunkNamesFrom 0 [[1], [2], [3]]) = chunkNamesFrom 0 [[1], [2], [3]] :=
  ⟨by decide, C6_ordering [[1], [2], [3]] (by decide)⟩

/-- C9: if the source path has no final file-name component (`..`-terminated
or a root), `split_file` reaches the `unwrap` and panics (when the target
directory is absent or empty, so that no earlier error fires); and whenever
the path does have a final component — in particular whenever it names an
existing regular file — the panic branch is unreachable. -/
theorem C9_no_filename_panics :
    (∀ (src : SrcFile) (savedir : Option Dir), (savedir = none ∨ savedir = some []) →
      fileName src.path = none → split_file src savedir = SplitResult.panic []) ∧
    (∀ (src : SrcFile) (savedir : Option Dir) (n : String), fileName src.path = some n →
      ∀ d, split_file src savedir ≠ SplitResult.panic d) := by
  constructor
  · intro src savedir hsave hfile
    have hd : savedir.getD [] = [] := by rcases hsave with rfl | rfl <;> rfl
    rw [split_file]
    simp only [hd, hfile, ne_eq, not_true_eq_false, if_false]
  · intro src savedir n hfile d
    obtain ⟨p, dat⟩ := src
    rw [split_file]
    by_cases h : savedir.getD [] = []
    · rw [if_neg (by simp [h])]
      simp only at hfile
      rw [hfile]
      cases dat with
      | none => simp
      | some bytes => simp
    · rw [if_pos h]
      simp

/-- Witness for C9: a `..`-terminated path panics; a normal path does not. -/
theorem C9_no_filename_panics_witness :
    (fileName [".."] = none ∧ split_file ⟨[".."], none⟩ none = SplitResult.panic []) ∧
    (fileName ["a"] = some "a" ∧ split_file ⟨["a"], some [1]⟩ none ≠ SplitResult.panic []) :=
  ⟨⟨by decide, C9_no_filename_panics.1 ⟨[".."], none⟩ none (Or.inl rfl) (by decide)⟩,
   ⟨by decide, C9_no_filename_panics.2 ⟨["a"], some [1]⟩ none "a" (by decide) []⟩⟩

/-- C10: the reconstruction enumerates exactly the directory entries whose
name starts with the prefix `"chunk"` (well-formed 3-digit names or not);
in particular the output file, created before the enumeration, is itself
enumerated whenever its name starts with `"chunk"`. -/
theorem C10_chunk_enumeration :
    (∀ (d : Dir) (cn : String),
      cn ∈ chunkListOf d ↔ cn ∈ dirNames d ∧ strStarts cn "chunk" = true) ∧
    (∀ (d : Dir) (name : String), strStarts name "chunk" = true →
      name ∈ chunkListOf (dirInsert d name [])) := by
  refine ⟨mem_chunkListOf, ?_⟩
  intro d name hname
  rw [mem_chunkListOf]
  refine ⟨?_, hname⟩
  by_cases hmem : name ∈ dirNames d
  · rw [dirNames_insert_mem d name [] hmem]
    exact hmem
  · rw [dirNames_insert_notMem d name [] hmem]
    exact List.mem_append_right _ (by simp)

/-- Witness for C10: an ill-formed name `"chunkX"` is enumerated, and the
output name `"chunkB"` enumerates itself after creation. -/
theorem C10_chunk_enumeration_witness :
    ("chunkX" ∈ chunkListOf [("chunkX", [1]), ("b", [2])]
      ↔ "chunkX" ∈ dirNames [("chunkX", [1]), ("b", [2])] ∧ strStarts "chunkX" "chunk" = true) ∧
    (strStarts "chunkB" "chunk" = true ∧
      "chunkB" ∈ chunkListOf (dirInsert [("a", [1])] "chunkB" [])) :=
  ⟨C10_chunk_enumeration.1 [("chunkX", [1]), ("b", [2])] "chunkX",
   ⟨by decide, C10_chunk_enumeration.2 [("a", [1])] "chunkB" (by decide)⟩⟩

/-- C3 counterexample: splitting a non-existent source into an absent target
directory does fail with `NotFound`, but only after the directory has been
created and the metadata file has been written into it — the directory is
not "exactly as it was before the call". -/
theorem C3_counterexample :
    split_file ⟨["missing.bin"], none⟩ none
      = SplitResult.err IOErrorKind.notFound [("info.json", encodeInfo "missing.bin")] ∧
    dirLookup [("info.json", encodeInfo "missing.bin")] "info.json" ≠ none := by
  constructor
  · decide
  · decide

/-- C3 (amended): splitting a non-existent source with an absent or empty
target directory fails with `NotFound`, but by the time the error is
returned the target directory exists and contains the metadata file
`info.json` (the error is raised when opening the source, after the
metadata write). -/
theorem C3_not_found (p : List String) (name : String) (savedir : Option Dir)
    (hsave : savedir = none ∨ savedir = some []) (hfile : fileName p = some name) :
    split_file ⟨p, none⟩ savedir
      = SplitResult.err IOErrorKind.notFound [("info.json", encodeInfo name)] := by
  have hd : savedir.getD [] = [] := by rcases hsave with rfl | rfl <;> rfl
  rw [split_file]
  simp only [hd, hfile, ne_eq, not_true_eq_false, if_false]
  rw [dirInsert_nil]

/-- Witness for C3 (amended) at a concrete missing source. -/
theorem C3_not_found_witness :
    (fileName ["data", "missing.bin"] = some "missing.bin") ∧
    split_file ⟨["data", "missing.bin"], none⟩ none
      = SplitResult.err IOErrorKind.notFound [("info.json", encodeInfo "missing.bin")] :=
  ⟨by decide, C3_not_found ["data", "missing.bin"] "missing.bin" none (Or.inl rfl) (by decide)⟩

/-- C5 counterexample: a directory with chunk files whose metadata file
exists but cannot be read as text (invalid UTF-8) makes `reconstruct_file`
return the read error instead of falling back to the default name. -/
theorem C5_counterexample :
    reconstruct_file [("info.json", [255]), ("chunk000", [1])]
      = ReconResult.err IOErrorKind.invalidData [("info.json", [255]), ("chunk000", [1])] := by
  decide

/-- C5 (amended): `reconstruct_file` succeeds and uses the fixed default
output name when the metadata file is missing, when its text is not valid
JSON, or when the parsed JSON has no string `original_filename` field; but
when the metadata file exists and its bytes are not valid UTF-8,
`fs::read_to_string` fails and `reconstruct_file` returns that error
(`InvalidData`) with the directory untouched, rather than falling back. -/
theorem C5_metadata_fallback :
    (∀ d : Dir, dirLookup d "info.json" = none →
      ∃ d', reconstruct_file d = ReconResult.ok defaultName d') ∧
    (∀ (d : Dir) (bs : Bytes), dirLookup d "info.json" = some bs →
      utf8DecodeList bs = none →
      reconstruct_file d = ReconResult.err IOErrorKind.invalidData d) ∧
    (∀ (d : Dir) (bs : Bytes) (cs : List Char), dirLookup d "info.json" = some bs →
      utf8DecodeList bs = some cs →
      (jsonParse ⟨cs⟩).bind (fun j => (jsonGet j "original_filename").bind jsonAsStr) = none →
      ∃ d', reconstruct_file d = ReconResult.ok defaultName d') := by
  refine ⟨?_, ?_, ?_⟩
  · intro d h
    obtain ⟨d', hok, -⟩ := doRecon_ok d defaultName
    exact ⟨d', by rw [reconstruct_meta_none d h]; exact hok⟩
  · exact fun d bs h hdec => reconstruct_meta_bad_utf8 d bs h hdec
  · intro d bs cs h hdec hparse
    obtain ⟨d', hok, -⟩ := doRecon_ok d defaultName
    refine ⟨d', ?_⟩
    rw [reconstruct_meta_decoded d bs cs h hdec, hparse]
    exact hok

/-- Witness for C5 (amended): the three fallback cases at concrete
directories — no metadata, metadata that is not JSON, and valid JSON without
the field. -/
theorem C5_metadata_fallback_witness :
    (dirLookup [("chunk000", [1])] "info.json" = none ∧
      ∃ d', reconstruct_file [("chunk000", [1])] = ReconResult.ok defaultName d') ∧
    ((dirLookup [("info.json", [120, 121]), ("chunk000", [1])] "info.json" = some [120, 121] ∧
       utf8DecodeList [120, 121] = some ['x', 'y'] ∧
       (jsonParse ⟨['x', 'y']⟩).bind
         (fun j => (jsonGet j "original_filename").bind jsonAsStr) = none) ∧
      ∃ d', reconstruct_file [("info.json", [120, 121]), ("chunk000", [1])]
        = ReconResult.ok defaultName d') ∧
    ((dirLookup [("info.json", [123, 125]), ("chunk000", [1])] "info.json" = some [123, 125] ∧
       utf8DecodeList [123, 125] = some ['\x7b', '\x7d'] ∧
       (jsonParse ⟨['\x7b', '\x7d']⟩).bind
         (fun j => (jsonGet j "original_filename").bind jsonAsStr) = none) ∧
      ∃ d', reconstruct_file [("info.json", [123, 125]), ("chunk000", [1])]
        = ReconResult.ok defaultName d') :=
  ⟨⟨by decide, C5_metadata_fallback.1 [("chunk000", [1])] (by decide)⟩,
   ⟨⟨by decide, by decide, by decide⟩,
    C5_metadata_fallback.2.2 [("info.json", [120, 121]), ("chunk000", [1])] [120, 121] ['x', 'y']
      (by decide) (by decide) (by decide)⟩,
   ⟨⟨by decide, by decide, by decide⟩,
    C5_metadata_fallback.2.2 [("info.json", [123, 125]), ("chunk000", [1])] [123, 125]
      ['\x7b', '\x7d'] (by decide) (by decide) (by decide)⟩⟩

/-- The split loop never touches an entry that is not a chunk name. -/
theorem writeChunksAux_lookup_other (cs : List Bytes) : ∀ (d : Dir) (i : Nat) (key : String),
    (∀ i', key ≠ chunkName i') → dirLookup (writeChunksAux d i cs) key = dirLookup d key := by
  induction cs with
  | nil =>
    intro d i key _
    rw [writeChunksAux]
  | cons c cs ih =>
    intro d i key hkey
    rw [writeChunksAux, ih _ (i + 1) key hkey, dirLookup_insert_ne d (chunkName i) key c (hkey i)]

/-- C7: a successful split records the source file's base name — its final
path component, independent of the leading directories — as the string value
of the `original_filename` field of the metadata file. -/
theorem C7_metadata_basename (dirs : List String) (name : String) (data : Bytes)
    (savedir : Option Dir) (hsave : savedir = none ∨ savedir = some [])
    (hname : name ≠ "..") :
    ∃ D, split_file ⟨dirs ++ [name], some data⟩ savedir = SplitResult.ok D ∧
      dirLookup D "info.json" = some (encodeInfo name) ∧
      utf8DecodeList (encodeInfo name) = some (infoJsonString name).data ∧
      (jsonParse (infoJsonString name)).bind
        (fun j => (jsonGet j "original_filename").bind jsonAsStr) = some name := by
  have hd : savedir.getD [] = [] := by rcases hsave with rfl | rfl <;> rfl
  have hfile : fileName (dirs ++ [name]) = some name := by
    rw [fileName, List.getLast?_concat]
    simp only [if_neg hname]
  rw [split_file]
  simp only [hd, hfile, ne_eq, not_true_eq_false, if_false]
  rw [dirInsert_nil]
  refine ⟨_, rfl, ?_, utf8DecodeList_encodeChars _, extractName_info name⟩
  rw [writeChunksAux_lookup_other _ _ 0 "info.json" (fun i' hh => chunkName_ne_info i' hh.symm)]
  rw [dirLookup_cons, if_pos rfl]

/-- Witness for C7 at a two-component path. -/
theorem C7_metadata_basename_witness :
    ("b.txt" : String) ≠ ".." ∧
    ∃ D, split_file ⟨["home", "user"] ++ ["b.txt"], some [9]⟩ none = SplitResult.ok D ∧
      dirLookup D "info.json" = some (encodeInfo "b.txt") ∧
      utf8DecodeList (encodeInfo "b.txt") = some (infoJsonString "b.txt").data ∧
      (jsonParse (infoJsonString "b.txt")).bind
        (fun j => (jsonGet j "original_filename").bind jsonAsStr) = some "b.txt" :=
  ⟨by decide, C7_metadata_basename ["home", "user"] "b.txt" [9] none (Or.inl rfl) (by decide)⟩

/-- C8 counterexample: when the metadata names an existing chunk file, the
output file is that chunk file, so reconstruction truncates it before the
concatenation — a chunk file's bytes are not left unchanged. -/
theorem C8_counterexample :
    reconstruct_file [("info.json", encodeInfo "chunk000"), ("chunk000", [5, 6])]
      = ReconResult.ok "chunk000" [("info.json", encodeInfo "chunk000"), ("chunk000", [])] ∧
    dirLookup [("info.json", encodeInfo "chunk000"), ("chunk000", ([] : Bytes))] "chunk000"
      ≠ some [5, 6] := by
  constructor
  · decide
  · decide

/-- C8 (amended): after `reconstruct_file` succeeds, every entry other than
the output file is byte-for-byte unchanged — the metadata and chunk files
are only mutated in the one case in which the output name coincides with
one of them; and the only error outcome (`InvalidData` on unreadable
metadata) leaves the whole directory unchanged. -/
theorem C8_output_only :
    (∀ (d : Dir) (name : String) (d' : Dir), reconstruct_file d = ReconResult.ok name d' →
      ∀ k, k ≠ name → dirLookup d' k = dirLookup d k) ∧
    (∀ (d : Dir) (e : IOErrorKind) (d' : Dir), reconstruct_file d = ReconResult.err e d' →
      d' = d ∧ e = IOErrorKind.invalidData) := by
  have hmain : ∀ (d : Dir) (nm name : String) (d' : Dir),
      doRecon d nm = ReconResult.ok name d' →
      ∀ k, k ≠ name → dirLookup d' k = dirLookup d k := by
    intro d nm name d' hok k hk
    obtain ⟨d2, hd2, hframe⟩ := doRecon_ok d nm
    rw [hok] at hd2
    injection hd2 with h1 h2
    subst h1
    subst h2
    exact hframe k hk
  constructor
  · intro d name d' hok k hk
    cases hm : dirLookup d "info.json" with
    | none =>
      rw [reconstruct_meta_none d hm] at hok
      exact hmain d defaultName name d' hok k hk
    | some bs =>
      cases hdec : utf8DecodeList bs with
      | none =>
        rw [reconstruct_meta_bad_utf8 d bs hm hdec] at hok
        simp at hok
      | some cs =>
        rw [reconstruct_meta_decoded d bs cs hm hdec] at hok
        exact hmain d _ name d' hok k hk
  · intro d e d' herr
    cases hm : dirLookup d "info.json" with
    | none =>
      rw [reconstruct_meta_none d hm] at herr
      obtain ⟨d2, hd2, -⟩ := doRecon_ok d defaultName
      rw [hd2] at herr
      simp at herr
    | some bs =>
      cases hdec : utf8DecodeList bs with
      | none =>
        rw [reconstruct_meta_bad_utf8 d bs hm hdec] at herr
        injection herr with h1 h2
        exact ⟨h2.symm, h1.symm⟩
      | some cs =>
        rw [reconstruct_meta_decoded d bs cs hm hdec] at herr
        obtain ⟨d2, hd2, -⟩ := doRecon_ok d _
        rw [hd2] at herr
        simp at herr

/-- Witness for C8 (amended): on a directory with one unrelated entry, the
entry is unchanged after reconstruction. -/
theorem C8_output_only_witness :
    reconstruct_file [("a", [1])]
      = ReconResult.ok defaultName [("a", [1]), ("reconstructed_file", [])] ∧
    ("a" : String) ≠ defaultName ∧
    dirLookup [("a", [1]), ("reconstructed_file", ([] : Bytes))] "a" = dirLookup [("a", [1])] "a" :=
  ⟨by decide, by decide,
   C8_output_only.1 [("a", [1])] defaultName [("a", [1]), ("reconstructed_file", [])]
     (by decide) "a" (by decide)⟩

/-- C1 counterexample: a source file whose base name is itself a chunk name
breaks the round trip — reconstruction truncates the chunk file it is about
to write, and the reconstructed file holds no bytes of the original. -/
theorem C1_counterexample :
    split_file ⟨["chunk000"], some [7]⟩ none
      = SplitResult.ok [("info.json", encodeInfo "chunk000"), ("chunk000", [7])] ∧
    reconstruct_file [("info.json", encodeInfo "chunk000"), ("chunk000", [7])]
      = ReconResult.ok "chunk000" [("info.json", encodeInfo "chunk000"), ("chunk000", [])] ∧
    dirLookup [("info.json", encodeInfo "chunk000"), ("chunk000", ([] : Bytes))] "chunk000"
      ≠ some [7] := by
  refine ⟨by decide, by decide, by decide⟩

/-- C1 (amended): for every source file whose base name does not start with
`"chunk"` and whose size needs at most 1000 chunks, splitting into an
absent or empty target directory and then reconstructing that directory
succeeds, and the reconstructed entry carries the source's base name and is
byte-for-byte identical to the source data. -/
theorem C1_round_trip (p : List String) (name : String) (data : Bytes) (savedir : Option Dir)
    (hsave : savedir = none ∨ savedir = some []) (hfile : fileName p = some name)
    (hname : strStarts name "chunk" = false)
    (hbound : data.length ≤ 1000 * CHUNK_SIZE) :
    ∃ d d', split_file ⟨p, some data⟩ savedir = SplitResult.ok d ∧
      reconstruct_file d = ReconResult.ok name d' ∧
      dirLookup d' name = some data := by
  obtain ⟨d', hrec, hlook⟩ := reconstruct_of_split name data hname hbound
  exact ⟨_, d', split_file_ok p name data savedir hsave hfile hbound, hrec, hlook⟩

/-- Witness for C1 (amended) at a three-byte file named `a.txt`. -/
theorem C1_round_trip_witness :
    (fileName ["home", "a.txt"] = some "a.txt" ∧ strStarts "a.txt" "chunk" = false ∧
      ([1, 2, 3] : Bytes).length ≤ 1000 * CHUNK_SIZE) ∧
    ∃ d d', split_file ⟨["home", "a.txt"], some [1, 2, 3]⟩ none = SplitResult.ok d ∧
      reconstruct_file d = ReconResult.ok "a.txt" d' ∧
      dirLookup d' "a.txt" = some [1, 2, 3] :=
  ⟨⟨by decide, by decide, by decide⟩,
   C1_round_trip ["home", "a.txt"] "a.txt" [1, 2, 3] none (Or.inl rfl) (by decide) (by decide)
     (by decide)⟩
